import Mathlib

/-!
# Verification of the OPTIPICK warehouse planner

Shallow embedding of the core algorithms of the repository:

* `src/astar.py` — A* grid pathfinding (`manhattan_distance`, `get_neighbors`,
  `astar_path`, `calculate_distance`);
* `src/distances.py` — the all-pairs distance table (`calculate_distance_matrix`);
* `src/optimizer_mintime.py` — the CP-SAT tour model (`can_agent_handle_product`
  and the constraint set of `optimize_routes`), modelled as a feasibility
  predicate over candidate solutions;
* `src/collision_checker.py` — trajectory expansion
  (`calculate_agent_trajectory`, `calculate_path`) and the collision
  resolution loop (`detect_collisions`, `check_and_adjust_collisions`).

Python `dict`s keyed by positions are embedded as association lists with
front-insertion (newest binding shadows older ones, exactly like a `dict`
update as far as lookups are concerned); the `heapq` priority queue is
embedded as a list together with a minimum-extraction function on the
`(f, counter)` lexicographic order that `heapq` compares (counters are
pairwise distinct, so the position component of the Python tuples never
takes part in a comparison).  Unbounded `while` loops are given explicit
fuel; fuel exhaustion yields the failure value.
-/

namespace Optipick

/-- A warehouse cell `[x, y]`, 1-based coordinates, as in the Python lists. -/
abbrev Cell := Int × Int

/-- A navigation grid: rows of 0/1 flags, row 0 corresponding to `y = height`. -/
abbrev Grid := List (List Nat)

/-- `height = len(grid)` (src/astar.py line 29). -/
def gridHeight (grid : Grid) : Nat := grid.length

/-- `width = len(grid[0]) if height > 0 else 0` (src/astar.py line 30). -/
def gridWidth (grid : Grid) : Nat :=
  match grid with
  | [] => 0
  | row :: _ => row.length

/-- The in-bounds test `1 <= x <= width and 1 <= y <= height`
(equivalently `0 <= x-1 < width and 0 <= height-y < height`, the form used on
the endpoints in `astar_path`, src/astar.py lines 84-90). -/
def inBoundsB (grid : Grid) (p : Cell) : Bool :=
  1 ≤ p.1 && p.1 ≤ (gridWidth grid : Int) && 1 ≤ p.2 && p.2 ≤ (gridHeight grid : Int)

/-- The grid value at a cell: `grid[height - y][x - 1]`, guarded by the bounds
check; `none` when out of bounds or when the (ragged) row is too short. -/
def cellVal (grid : Grid) (p : Cell) : Option Nat :=
  if inBoundsB grid p then
    match grid.get? ((gridHeight grid : Int) - p.2).toNat with
    | none => none
    | some row => row.get? (p.1 - 1).toNat
  else none

/-- `manhattan_distance` (src/astar.py lines 9-13). -/
def manhattan_distance (pos1 pos2 : Cell) : Int :=
  |pos1.1 - pos2.1| + |pos1.2 - pos2.2|

/-- `get_neighbors` (src/astar.py lines 16-55): the traversable 4-neighbours,
in the source's direction order up, down, left, right. -/
def get_neighbors (pos : Cell) (grid : Grid) : List Cell :=
  [((0 : Int), (1 : Int)), (0, -1), (-1, 0), (1, 0)].filterMap fun d =>
    let np : Cell := (pos.1 + d.1, pos.2 + d.2)
    if cellVal grid np = some 1 then some np else none

/-- Association-list lookup, modelling Python `dict` reads (`d[k]` /
`k in d`); insertion is modelled by consing the new binding in front, so the
newest binding shadows older ones exactly as a `dict` update does. -/
def alookup {α β : Type} [DecidableEq α] : List (α × β) → α → Option β
  | [], _ => none
  | (a, b) :: t, k => if a = k then some b else alookup t k

/-- A priority-queue entry `(f_score, counter, position)` as pushed on the
`heapq` heap in `astar_path`. -/
abbrev HeapEntry := Int × Nat × Cell

/-- The strict order `heapq` effectively compares entries by: lexicographic on
`(f, counter)`; counters are pairwise distinct so the position is never
compared. -/
def heapLt (a b : HeapEntry) : Bool :=
  a.1 < b.1 || (a.1 == b.1 && a.2.1 < b.2.1)

/-- `heapq.heappop`: extract a `heapLt`-minimal entry (unique, since counters
are distinct) and return it with the remaining entries. -/
def popMin : List HeapEntry → Option (HeapEntry × List HeapEntry)
  | [] => none
  | e :: es =>
    match popMin es with
    | none => some (e, [])
    | some (m, rest) => if heapLt m e then some (m, e :: rest) else some (e, es)

/-- The mutable state of the `astar_path` main loop. -/
structure AState where
  openSet : List HeapEntry
  counter : Nat
  cameFrom : List (Cell × Cell)
  gScore : List (Cell × Nat)
  closed : List Cell

/-- Path reconstruction (src/astar.py lines 121-126): follow `came_from` links
from a node; the Python `while` loop is fueled, the caller supplies enough
fuel for the (strictly `g`-decreasing, hence finite) chain.  The reversal to
start-first order is done by the caller, as in the source. -/
def reconstruct (fuel : Nat) (cameFrom : List (Cell × Cell)) (node : Cell) : List Cell :=
  match fuel with
  | 0 => [node]
  | fuel + 1 =>
    match alookup cameFrom node with
    | none => [node]
    | some c => node :: reconstruct fuel cameFrom c

/-- `tentative_g = g_score[tuple(current)] + 1` (src/astar.py line 138);
the popped node always has a `g_score` entry, so the `getD 0` default is
never taken on reachable states. -/
def tentativeG (st : AState) (cur : Cell) : Nat :=
  (alookup st.gScore cur).getD 0 + 1

/-- The update guard `neighbor not in g_score or tentative_g < g_score[n]`
(src/astar.py line 141). -/
def improvesB (st : AState) (cur nb : Cell) : Bool :=
  match alookup st.gScore nb with
  | none => true
  | some g => decide (tentativeG st cur < g)

/-- One neighbour step of the expansion loop (src/astar.py lines 131-149):
skip closed neighbours; on first discovery or strict `g` improvement record
`came_from`, update `g_score` and push `(g + h, counter, neighbour)` with the
incremented tie-break counter.  (The write-only `f_score` dict of the source
is not part of the state: it is never read.) -/
def expandOne (endp cur : Cell) (st : AState) (nb : Cell) : AState :=
  if nb ∈ st.closed then st
  else if improvesB st cur nb then
    { openSet := ((tentativeG st cur : Int) + manhattan_distance nb endp,
        st.counter + 1, nb) :: st.openSet
      counter := st.counter + 1
      cameFrom := (nb, cur) :: st.cameFrom
      gScore := (nb, tentativeG st cur) :: st.gScore
      closed := st.closed }
  else st

/-- The `while open_set` loop of `astar_path` (src/astar.py lines 114-153),
with explicit fuel.  Popping the goal reconstructs and returns the path;
otherwise the popped cell is closed and its neighbours expanded. -/
def astarLoop (grid : Grid) (endp : Cell) : Nat → AState → Option (List Cell)
  | 0, _ => none
  | fuel + 1, st =>
    match popMin st.openSet with
    | none => none
    | some ((_, _, cur), rest) =>
      if cur = endp then
        some (reconstruct st.gScore.length st.cameFrom endp).reverse
      else
        let st1 : AState := { st with openSet := rest, closed := cur :: st.closed }
        astarLoop grid endp fuel ((get_neighbors cur grid).foldl (expandOne endp cur) st1)

/-- The initial loop state: heap `[(0, 0, start)]`, `g_score = {start: 0}`
(src/astar.py lines 102-112). -/
def astarInit (start : Cell) : AState :=
  { openSet := [(0, 0, start)], counter := 0, cameFrom := [], gScore := [(start, 0)], closed := [] }

/-- Fuel for the main loop; large enough that the loop always terminates by
finding the goal or exhausting the open set before the fuel runs out. -/
def astarFuel (grid : Grid) : Nat :=
  2 * (gridWidth grid * gridHeight grid + 1) * (gridWidth grid * gridHeight grid + 1) + 2

/-- `astar_path` (src/astar.py lines 58-153): the `start == end` short-circuit,
then the bounds and blocked-cell checks on both endpoints, then the A* loop.
Returns `none` where the source returns `None`. -/
def astar_path (start endp : Cell) (grid : Grid) : Option (List Cell) :=
  if start = endp then some [start]
  else if ¬ inBoundsB grid start then none
  else if ¬ inBoundsB grid endp then none
  else if cellVal grid start = some 0 then none
  else if cellVal grid endp = some 0 then none
  else astarLoop grid endp (astarFuel grid) (astarInit start)

/-- `calculate_distance` (src/astar.py lines 156-175): path length minus one,
falling back to the Manhattan distance when A* fails. -/
def calculate_distance (start endp : Cell) (grid : Grid) : Nat :=
  match astar_path start endp grid with
  | none => (manhattan_distance start endp).toNat
  | some path => path.length - 1

/-- A well-formed navigation grid per the data model: rectangular rows,
entries in {0 = blocked, 1 = traversable}. -/
def ValidGrid (grid : Grid) : Prop :=
  (∀ row ∈ grid, row.length = gridWidth grid) ∧
  (∀ row ∈ grid, ∀ v ∈ row, v = 0 ∨ v = 1)

/-- The loop invariant of `astar_path` that underlies path validity:
`g_score[start] = 0` and `start` has no predecessor; every `came_from` link
goes from a traversable neighbour back to a cell of strictly smaller
`g_score` (so predecessor chains are finite and end at `start`); every
scored cell other than `start` has a predecessor; all recorded `g` values
are below the binding-list length (which bounds the reconstruction fuel);
and every heap entry's position has a `g_score`. -/
structure VInv (grid : Grid) (start : Cell) (st : AState) : Prop where
  gStart : alookup st.gScore start = some 0
  cfStart : alookup st.cameFrom start = none
  cfChain : ∀ n c, alookup st.cameFrom n = some c →
    n ∈ get_neighbors c grid ∧
      ∃ gn gc, alookup st.gScore n = some gn ∧ alookup st.gScore c = some gc ∧ gc < gn
  gCf : ∀ n gn, alookup st.gScore n = some gn → n ≠ start →
    ∃ c, alookup st.cameFrom n = some c
  gBound : ∀ p ∈ st.gScore, p.2 < st.gScore.length
  openG : ∀ e ∈ st.openSet, ∃ g, alookup st.gScore e.2.2 = some g

/-- The 5×5 demonstration grid from the source's self-test
(src/astar.py lines 181-187). -/
def demoGrid : Grid :=
  [[1, 1, 1, 1, 1], [1, 0, 0, 0, 1], [1, 0, 1, 0, 1], [1, 0, 1, 0, 1], [1, 1, 1, 1, 1]]

/-! ## The tour optimizer (src/optimizer_mintime.py)

The CP-SAT model built by `optimize_routes` is embedded as a feasibility
predicate over candidate solutions: a returned plan is exactly an assignment
of the decision variables satisfying every posted constraint.  Auxiliary
Booleans whose reification pins them uniquely in every feasible solution
(`both_assigned`, `in_this_trip`, the incompatibility `both_same`,
`both_express_std`) are inlined as the values they are forced to take; the
`same_trip` reifications, which are genuinely free when the guard literal is
false, are kept as solution components.  The objective machinery
(`max_end_time`, `time_contrib`, `agent_last_time`) adds no constraint on the
decision variables beyond satisfiability and is omitted.  Python floats
(weights, speeds) are modelled as rationals, `int()` on the non-negative
quantities involved as the floor. -/

/-- Robot restrictions; `max_item_weight = none` models the `float('inf')`
default of `restrictions.get('max_item_weight', float('inf'))`. -/
structure Restrictions where
  no_fragile : Bool
  max_item_weight : Option ℚ
deriving DecidableEq

structure Agent where
  id : String
  type : String
  capacity_weight : ℚ
  capacity_volume : ℕ
  speed : ℚ
  restrictions : Restrictions
deriving DecidableEq

structure Product where
  id : String
  category : String
  weight : ℚ
  volume : ℕ
  fragile : Bool
  location : String
  pickup_location : Cell
  incompatible_with : List String
deriving DecidableEq

structure ZonesAccess where
  robot_accessible_storage : List String
deriving DecidableEq

/-- `can_agent_handle_product` (src/optimizer_mintime.py lines 19-33). -/
def can_agent_handle_product (agent : Agent) (product : Product)
    (zones_access : ZonesAccess) : Bool :=
  if agent.type = "robot" then
    if product.location ∉ zones_access.robot_accessible_storage then false
    else if product.category = "food" then false
    else if agent.restrictions.no_fragile && product.fragile then false
    else
      match agent.restrictions.max_item_weight with
      | some max_weight => !decide (product.weight > max_weight)
      | none => true
  else true

/-- One product unit of `products_to_pick` (quantity already expanded,
src/optimizer_mintime.py lines 50-61); the deadline `"HH:MM"` string is
modelled as the (hours, minutes) pair it parses to. -/
structure PickUnit where
  product_data : Product
  deadline : ℤ × ℤ
  priority : String
deriving DecidableEq

/-- `time_to_minutes` (src/optimizer_mintime.py lines 6-10) on the parsed
(hours, minutes) pair. -/
def time_to_minutes (t : ℤ × ℤ) : ℤ :=
  t.1 * 60 + t.2 - 9 * 60

def MAX_TRIPS : ℕ := 15
def TIME_START : ℤ := 0
def TIME_END : ℤ := 480
def PICKING_TIME : ℤ := 1
def DEPOT_TIME : ℤ := 2
def PREPARATION_POINT : Cell := (6, 5)

/-- `int(d * METERS_PER_CELL / (speed * 60)) + 1` with `METERS_PER_CELL = 3`
(src/optimizer_mintime.py lines 107-108 and 133-135, also the
preparation-point legs at lines 152-157); the quantities are non-negative so
Python's truncating `int()` is the floor. -/
def travel_time (d : ℤ) (speed : ℚ) : ℤ :=
  ⌊((d : ℚ) * 3) / (speed * 60)⌋ + 1

/-- An optimization instance: the expanded unit list, the agent list, the
distance table lookup `distance_data['distances'].get((i, j), 0)` (a total
function, the `.get` default being part of the data), and the zone-access
catalog. -/
structure OptInstance (nP nA : ℕ) where
  units : Fin nP → PickUnit
  agents : Fin nA → Agent
  dist : String → String → ℕ
  zones : ZonesAccess

/-- Does the assignment variable `assignment[(i, a)]` exist (it is a literal
`0` otherwise, src/optimizer_mintime.py lines 78-84)? -/
def canH {nP nA : ℕ} (inst : OptInstance nP nA) (i : Fin nP) (a : Fin nA) : Bool :=
  can_agent_handle_product (inst.agents a) (inst.units i).product_data inst.zones

def unitPid {nP nA : ℕ} (inst : OptInstance nP nA) (i : Fin nP) : String :=
  (inst.units i).product_data.id

def unitLoc {nP nA : ℕ} (inst : OptInstance nP nA) (i : Fin nP) : Cell :=
  (inst.units i).product_data.pickup_location

/-- `return_time` for a trip change between units `i` and `j`
(src/optimizer_mintime.py lines 146-161): Manhattan leg to the preparation
point, 2-minute depot dwell, Manhattan leg back out. -/
def return_time {nP nA : ℕ} (inst : OptInstance nP nA) (i j : Fin nP) (speed : ℚ) : ℤ :=
  travel_time (manhattan_distance (unitLoc inst i) PREPARATION_POINT) speed + DEPOT_TIME +
    travel_time (manhattan_distance PREPARATION_POINT (unitLoc inst j)) speed

/-- A candidate assignment of the model's decision variables. -/
structure Solution (nP nA : ℕ) where
  assign : Fin nP → Fin nA → Bool
  trip : Fin nP → Fin nA → ℕ
  visit : Fin nP → ℤ
  before : Fin nP → Fin nP → Fin nA → Bool
  sameTrip : Fin nP → Fin nP → Fin nA → Bool
  sameTripInc : Fin nP → Fin nP → Fin nA → Bool
  agentUsed : Fin nA → Bool
  humanToCart : Fin nA → Fin nA → Bool

/-- Variables only exist for compatible (unit, agent) pairs; the literal `0`
of incompatible pairs means `assign` is false there. -/
def assignOnlyCompat {nP nA : ℕ} (inst : OptInstance nP nA) (s : Solution nP nA) : Prop :=
  ∀ i a, s.assign i a = true → canH inst i a = true

/-- `trip_number[(i, a)] ∈ [1, MAX_TRIPS]` wherever the variable exists. -/
def tripRange {nP nA : ℕ} (inst : OptInstance nP nA) (s : Solution nP nA) : Prop :=
  ∀ i a, canH inst i a = true → 1 ≤ s.trip i a ∧ s.trip i a ≤ MAX_TRIPS

/-- `visit_time[i] ∈ [TIME_START, TIME_END]`. -/
def visitRange {nP : ℕ} {nA : ℕ} (s : Solution nP nA) : Prop :=
  ∀ i : Fin nP, TIME_START ≤ s.visit i ∧ s.visit i ≤ TIME_END

/-- The sequencing/timing block (src/optimizer_mintime.py lines 110-163):
for every agent and ordered pair of distinct compatible units,
`both_assigned` (inlined as the conjunction it is pinned to) enforces the
`before` partition and the `same_trip` reification; `before ∧ same_trip`
enforces the same-trip travel gap, `before ∧ ¬same_trip` the
via-preparation-point gap. -/
def timingBlock {nP nA : ℕ} (inst : OptInstance nP nA) (s : Solution nP nA) : Prop :=
  ∀ (a : Fin nA) (i j : Fin nP), i ≠ j → canH inst i a = true → canH inst j a = true →
    (s.assign i a = true ∧ s.assign j a = true →
      (s.before i j a ≠ s.before j i a) ∧
      (s.sameTrip i j a = true → s.trip i a = s.trip j a) ∧
      (s.sameTrip i j a = false → s.trip i a ≠ s.trip j a)) ∧
    (s.before i j a = true → s.sameTrip i j a = true →
      s.visit j ≥ s.visit i +
        travel_time (inst.dist (unitPid inst i) (unitPid inst j)) (inst.agents a).speed +
        PICKING_TIME) ∧
    (s.before i j a = true → s.sameTrip i j a = false →
      s.visit j ≥ s.visit i + return_time inst i j (inst.agents a).speed + PICKING_TIME)

/-- Constraint C1 of the model (src/optimizer_mintime.py lines 167-171):
whenever some compatible agent exists, exactly one compatible agent carries
the unit. -/
def uniqueAssign {nP nA : ℕ} (inst : OptInstance nP nA) (s : Solution nP nA) : Prop :=
  ∀ i, (∃ a, canH inst i a = true) →
    (Finset.univ.filter fun a => canH inst i a = true ∧ s.assign i a = true).card = 1

/-- Constraint C1b of the model (src/optimizer_mintime.py lines 173-191):
for a unit stored in a robot-accessible zone, if any robot can handle it,
exactly one robot carries it. -/
def robotZone {nP nA : ℕ} (inst : OptInstance nP nA) (s : Solution nP nA) : Prop :=
  ∀ i, (inst.units i).product_data.location ∈ inst.zones.robot_accessible_storage →
    (∃ a, (inst.agents a).type = "robot" ∧ canH inst i a = true) →
    (Finset.univ.filter fun a =>
      (inst.agents a).type = "robot" ∧ canH inst i a = true ∧ s.assign i a = true).card = 1

/-- `int(weight * 1000)` grams (src/optimizer_mintime.py line 209). -/
def weight_g (p : Product) : ℤ := ⌊p.weight * 1000⌋

/-- `int(capacity_weight * 1000)` grams (src/optimizer_mintime.py line 213). -/
def capacity_g (a : Agent) : ℤ := ⌊a.capacity_weight * 1000⌋

/-- Constraint C2 of the model (src/optimizer_mintime.py lines 193-214):
per-agent per-trip weight capacity; `in_this_trip` is pinned to
`assign ∧ trip = t` and inlined. -/
def weightCap {nP nA : ℕ} (inst : OptInstance nP nA) (s : Solution nP nA) : Prop :=
  ∀ (a : Fin nA), ∀ t ∈ Finset.Icc 1 MAX_TRIPS,
    (∃ i, canH inst i a = true) →
    ((Finset.univ.filter fun i =>
        canH inst i a = true ∧ s.assign i a = true ∧ s.trip i a = t).sum
      fun i => weight_g (inst.units i).product_data) ≤ capacity_g (inst.agents a)

/-- Constraint C3 of the model (src/optimizer_mintime.py lines 216-233):
per-agent per-trip volume capacity. -/
def volumeCap {nP nA : ℕ} (inst : OptInstance nP nA) (s : Solution nP nA) : Prop :=
  ∀ (a : Fin nA), ∀ t ∈ Finset.Icc 1 MAX_TRIPS,
    (∃ i, canH inst i a = true) →
    ((Finset.univ.filter fun i =>
        canH inst i a = true ∧ s.assign i a = true ∧ s.trip i a = t).sum
      fun i => (inst.units i).product_data.volume) ≤ (inst.agents a).capacity_volume

/-- Constraint C4 of the model (src/optimizer_mintime.py lines 235-258):
incompatible products on the same agent must occupy different trips;
`both_same` is inlined, the block's `same_trip` reification is kept. -/
def incompatSplit {nP nA : ℕ} (inst : OptInstance nP nA) (s : Solution nP nA) : Prop :=
  ∀ (i j : Fin nP), i < j →
    (inst.units j).product_data.id ∈ (inst.units i).product_data.incompatible_with →
    ∀ a, canH inst i a = true → canH inst j a = true →
      (s.assign i a = true ∧ s.assign j a = true →
        (s.sameTripInc i j a = true → s.trip i a = s.trip j a) ∧
        (s.sameTripInc i j a = false → s.trip i a ≠ s.trip j a) ∧
        s.sameTripInc i j a = false)

/-- Constraint C5 of the model (src/optimizer_mintime.py lines 260-263):
deadlines. -/
def deadlinesOk {nP nA : ℕ} (inst : OptInstance nP nA) (s : Solution nP nA) : Prop :=
  ∀ i, s.visit i ≤ time_to_minutes (inst.units i).deadline

/-- Constraint C5b of the model (src/optimizer_mintime.py lines 265-287):
express units precede standard units on a shared agent (`both_express_std`
is pinned and inlined). -/
def priorityOrder {nP nA : ℕ} (inst : OptInstance nP nA) (s : Solution nP nA) : Prop :=
  ∀ (a : Fin nA) (i j : Fin nP), i ≠ j →
    (inst.units i).priority = "express" → (inst.units j).priority = "standard" →
    canH inst i a = true → canH inst j a = true →
    s.assign i a = true → s.assign j a = true → s.visit i < s.visit j

/-- The `agent_used` reification (src/optimizer_mintime.py lines 290-297);
only posted when the agent has at least one assignable unit. -/
def agentUsedPin {nP nA : ℕ} (inst : OptInstance nP nA) (s : Solution nP nA) : Prop :=
  ∀ a, (∃ i, canH inst i a = true) →
    (s.agentUsed a = true → ∃ i, canH inst i a = true ∧ s.assign i a = true) ∧
    (s.agentUsed a = false → ∀ i, canH inst i a = true → s.assign i a = false)

/-- Constraint C6 of the model (src/optimizer_mintime.py lines 299-315):
a used cart is escorted by exactly one human, an unused cart by none, and
each human escorts at most one cart. -/
def cartPairing {nP nA : ℕ} (inst : OptInstance nP nA) (s : Solution nP nA) : Prop :=
  (∀ c, (inst.agents c).type = "cart" →
    (s.agentUsed c = true →
      (Finset.univ.filter fun h =>
        (inst.agents h).type = "human" ∧ s.humanToCart h c = true).card = 1) ∧
    (s.agentUsed c = false →
      ∀ h, (inst.agents h).type = "human" → s.humanToCart h c = false)) ∧
  (∀ h, (inst.agents h).type = "human" →
    (Finset.univ.filter fun c =>
      (inst.agents c).type = "cart" ∧ s.humanToCart h c = true).card ≤ 1)

/-- Feasibility: a candidate solution satisfies every constraint the model
posts; the plans returned by `optimize_routes` are exactly the feasible
solutions (CP-SAT returns a feasible assignment or no solution). -/
def Feasible {nP nA : ℕ} (inst : OptInstance nP nA) (s : Solution nP nA) : Prop :=
  assignOnlyCompat inst s ∧ tripRange inst s ∧ visitRange s ∧ timingBlock inst s ∧
    uniqueAssign inst s ∧ robotZone inst s ∧ weightCap inst s ∧ volumeCap inst s ∧
    incompatSplit inst s ∧ deadlinesOk inst s ∧ priorityOrder inst s ∧
    agentUsedPin inst s ∧ cartPairing inst s

/-! Result construction and the failure branch (src/optimizer_mintime.py
lines 368-413 and src/run_optimization.py lines 51-52). -/

/-- The `cp_model` solver statuses relevant to the result branch. -/
inductive CpStatus
  | OPTIMAL
  | FEASIBLE
  | INFEASIBLE
  | MODEL_INVALID
  | UNKNOWN
deriving DecidableEq

/-- The optimizer's result dictionary; `none` fields model absent keys. -/
structure OptimizeResult (ρ : Type) where
  status : String
  agents_routes : Option ρ
  human_cart_assignments : Option (List (String × String))
deriving DecidableEq

/-- Result construction of `optimize_routes` (src/optimizer_mintime.py lines
371-413): on `OPTIMAL` or `FEASIBLE` a `'success'` result carrying the
extracted routes; otherwise the bare `{'status': 'no_solution'}` dictionary,
which has no routes key at all. -/
def optimize_result {ρ : Type} (solveStatus : CpStatus) (routes : ρ)
    (hca : List (String × String)) : OptimizeResult ρ :=
  if solveStatus = CpStatus.OPTIMAL ∨ solveStatus = CpStatus.FEASIBLE then
    { status := "success", agents_routes := some routes, human_cart_assignments := some hca }
  else
    { status := "no_solution", agents_routes := none, human_cart_assignments := none }

/-- The guard of `run_optimization` (src/run_optimization.py lines 51-52):
any non-`'success'` optimizer status is turned into a `'error'` result (the
human-readable message is omitted here); `none` means the pipeline
continues. -/
def run_optimization_gate {ρ : Type} (r : OptimizeResult ρ) : Option String :=
  if r.status ≠ "success" then some "error" else none

section FeasibleDecidable

variable {nP nA : ℕ} (inst : OptInstance nP nA) (s : Solution nP nA)

instance : Decidable (assignOnlyCompat inst s) := by unfold assignOnlyCompat; infer_instance

instance : Decidable (tripRange inst s) := by unfold tripRange; infer_instance

instance : Decidable (visitRange s) := by unfold visitRange; infer_instance

instance : Decidable (timingBlock inst s) := by unfold timingBlock; infer_instance

instance : Decidable (uniqueAssign inst s) := by unfold uniqueAssign; infer_instance

instance : Decidable (robotZone inst s) := by unfold robotZone; infer_instance

instance : Decidable (weightCap inst s) := by unfold weightCap; infer_instance

instance : Decidable (volumeCap inst s) := by unfold volumeCap; infer_instance

instance : Decidable (incompatSplit inst s) := by unfold incompatSplit; infer_instance

instance : Decidable (deadlinesOk inst s) := by unfold deadlinesOk; infer_instance

instance : Decidable (priorityOrder inst s) := by unfold priorityOrder; infer_instance

instance : Decidable (agentUsedPin inst s) := by unfold agentUsedPin; infer_instance

instance : Decidable (cartPairing inst s) := by unfold cartPairing; infer_instance

instance : Decidable (Feasible inst s) := by unfold Feasible; infer_instance

end FeasibleDecidable

/-! Concrete instances used as witnesses and counterexamples. -/

def noRestrictions : Restrictions := ⟨false, none⟩

def robotAgent : Agent := ⟨"Robot_1", "robot", 40, 100, 1, noRestrictions⟩

def humanAgent : Agent := ⟨"Human_1", "human", 35, 50, 3 / 2, noRestrictions⟩

def zonesDemo : ZonesAccess := ⟨["robot_zone"]⟩

/-- A food product stored in a robot-accessible zone. -/
def foodProduct : Product := ⟨"Product_food", "food", 1, 1, false, "robot_zone", (2, 2), []⟩

/-- A non-food product stored in a robot-accessible zone. -/
def plainProduct : Product :=
  ⟨"Product_plain", "electronics", 1, 1, false, "robot_zone", (3, 2), []⟩

def aisleProductA : Product := ⟨"Product_A", "electronics", 1, 1, false, "aisle", (2, 3), []⟩

def aisleProductB : Product := ⟨"Product_B", "electronics", 1, 1, false, "aisle", (4, 3), []⟩

/-- One food unit in a robot zone, a robot and a human in the fleet. -/
def instFood : OptInstance 1 2 :=
  ⟨fun _ => ⟨foodProduct, (12, 0), "standard"⟩, ![robotAgent, humanAgent], fun _ _ => 0,
    zonesDemo⟩

/-- The (unique possible) plan for `instFood`: the human carries the food
unit, since `can_agent_handle_product` rules the robot out. -/
def solFood : Solution 1 2 :=
  { assign := fun _ a => decide (a = 1)
    trip := fun _ _ => 1
    visit := fun _ => 0
    before := fun _ _ _ => false
    sameTrip := fun _ _ _ => false
    sameTripInc := fun _ _ _ => false
    agentUsed := fun a => decide (a = 1)
    humanToCart := fun _ _ => false }

/-- One robot-handleable unit in a robot zone, robot and human available. -/
def instRobot : OptInstance 1 2 :=
  ⟨fun _ => ⟨plainProduct, (12, 0), "standard"⟩, ![robotAgent, humanAgent], fun _ _ => 0,
    zonesDemo⟩

/-- A plan for `instRobot` assigning the unit to the robot. -/
def solRobot : Solution 1 2 :=
  { assign := fun _ a => decide (a = 0)
    trip := fun _ _ => 1
    visit := fun _ => 0
    before := fun _ _ _ => false
    sameTrip := fun _ _ _ => false
    sameTripInc := fun _ _ _ => false
    agentUsed := fun a => decide (a = 0)
    humanToCart := fun _ _ => false }

/-- Two plain units, a single human, tabulated distance 4 between any ids. -/
def instGap : OptInstance 2 1 :=
  ⟨![⟨aisleProductA, (12, 0), "standard"⟩, ⟨aisleProductB, (12, 0), "standard"⟩],
    ![humanAgent], fun _ _ => 4, zonesDemo⟩

/-- A feasible plan for `instGap`: both units on the human's trip 1, unit 0
visited at minute 5 and unit 1 at minute 7 (travel ⌊4·3∕90⌋+1 = 1 plus
1 minute picking). -/
def solGap : Solution 2 1 :=
  { assign := fun _ _ => true
    trip := fun _ _ => 1
    visit := fun i => if i = 0 then 5 else 7
    before := fun i j _ => decide (i = 0 ∧ j = 1)
    sameTrip := fun _ _ _ => true
    sameTripInc := fun _ _ _ => false
    agentUsed := fun _ => true
    humanToCart := fun _ _ => false }

/-! ## The trajectory builder and collision resolver (src/collision_checker.py)

`calculate_agent_trajectory` consumes only the routed products, the entry
point, the start delay, the optional grid and the assigned depot — the
`agent` and `distance_data` parameters feed a dead `cells_per_min`
computation (the trajectory advances one cell per stamped minute regardless)
and are omitted.  The Python trajectory `dict {minute: cell}` is embedded as
the list of `(minute, cell)` stamps in stamp order; the stamping clock only
ever moves forward so the keys are pairwise distinct. -/

/-- One routed product as consumed by the trajectory builder: pickup cell,
solver visit time and trip number (`p.get('trip_number', 1)`). -/
structure TrajProduct where
  pickup_location : Cell
  visit_time : ℕ
  trip_number : ℕ
deriving DecidableEq

/-- `n` unit steps of the x-coordinate in direction `d` from `cur`,
recording each visited cell. -/
def stepsX : ℕ → Int → Cell → List Cell
  | 0, _, _ => []
  | n + 1, d, cur => (cur.1 + d, cur.2) :: stepsX n d (cur.1 + d, cur.2)

/-- `n` unit steps of the y-coordinate in direction `d` from `cur`. -/
def stepsY : ℕ → Int → Cell → List Cell
  | 0, _, _ => []
  | n + 1, d, cur => (cur.1, cur.2 + d) :: stepsY n d (cur.1, cur.2 + d)

/-- The x-leg of `calculate_path_manhattan` (src/collision_checker.py lines
155-160): the `while current[0] != end[0]` loop runs `|ex - x|` times,
stepping towards the target and recording each cell. -/
def manhattanX (cur : Cell) (ex : Int) : List Cell :=
  if cur.1 < ex then stepsX (ex - cur.1).toNat 1 cur
  else stepsX (cur.1 - ex).toNat (-1) cur

/-- The y-leg of `calculate_path_manhattan` (src/collision_checker.py lines
162-167). -/
def manhattanY (cur : Cell) (ey : Int) : List Cell :=
  if cur.2 < ey then stepsY (ey - cur.2).toNat 1 cur
  else stepsY (cur.2 - ey).toNat (-1) cur

/-- `calculate_path_manhattan` (src/collision_checker.py lines 147-169):
move in x first, then in y; the start cell is not part of the result. -/
def calculate_path_manhattan (start endp : Cell) : List Cell :=
  manhattanX start endp.1 ++ manhattanY (endp.1, start.2) endp.2

/-- `calculate_path` (src/collision_checker.py lines 117-144): A* when a
grid is available, falling back to the Manhattan-shaped path when A* fails
or no grid is given. -/
def calculate_path (start endp : Cell) (grid? : Option Grid) : List Cell :=
  match grid? with
  | some grid =>
    match astar_path start endp grid with
    | none => calculate_path_manhattan start endp
    | some path => path
  | none => calculate_path_manhattan start endp

/-- The per-product walk loop (src/collision_checker.py lines 48-53): stamp
the cells of the path one per minute, stopping as soon as the target is
stamped.  Returns the stamps and the advanced clock. -/
def stampPath (t : ℕ) (target : Cell) : List Cell → List (ℕ × Cell) × ℕ
  | [] => ([], t)
  | c :: rest =>
    if c = target then ([(t, c)], t + 1)
    else
      let r := stampPath (t + 1) target rest
      ((t, c) :: r.1, r.2)

/-- The depot/entry walk loops (src/collision_checker.py lines 73-75, 91-93,
107-109): stamp every cell of the path, one per minute. -/
def stampAll (t : ℕ) : List Cell → List (ℕ × Cell) × ℕ
  | [] => ([], t)
  | c :: rest =>
    let r := stampAll (t + 1) rest
    ((t, c) :: r.1, r.2)

/-- `n` stationary stamps of `c` starting at minute `t`. -/
def dwellGo : ℕ → ℕ → Cell → List (ℕ × Cell)
  | 0, _, _ => []
  | n + 1, t, c => (t, c) :: dwellGo n (t + 1) c

/-- The picking dwell `while current_time <= visit_time`
(src/collision_checker.py lines 56-58), which runs `visitT + 1 - t` times
and leaves the clock at `max t (visitT + 1)`. -/
def dwell (t visitT : ℕ) (target : Cell) : List (ℕ × Cell) × ℕ :=
  (dwellGo (visitT + 1 - t) t target, t + (visitT + 1 - t))

/-- The body of `calculate_agent_trajectory`'s product loop
(src/collision_checker.py lines 41-112), processing the route from the
current position and clock: walk to the pickup, dwell until the delayed
visit time, then either return to the depot on a trip change, or — after the
last product — walk to the depot, dwell 2 minutes there, walk to the entry
point and stamp the final entry-point minute (without advancing the clock).
Returns the stamps and the recorded depot events. -/
def trajLoop (grid? : Option Grid) (depot entry : Cell) (delay : ℕ) :
    List TrajProduct → Cell → ℕ → List (ℕ × Cell) × List Cell
  | [], _, _ => ([], [])
  | p :: rest, cur, t =>
    let go := stampPath t p.pickup_location (calculate_path cur p.pickup_location grid?)
    let dw := dwell go.2 (p.visit_time + delay) p.pickup_location
    match rest with
    | [] =>
      let dleg := stampAll dw.2 (calculate_path p.pickup_location depot grid?)
      let eleg := stampAll (dleg.2 + 2) (calculate_path depot entry grid?)
      (go.1 ++ dw.1 ++ dleg.1 ++ [(dleg.2, depot), (dleg.2 + 1, depot)] ++ eleg.1 ++
        [(eleg.2, entry)], [depot])
    | q :: _ =>
      if q.trip_number ≠ p.trip_number then
        let dleg := stampAll dw.2 (calculate_path p.pickup_location depot grid?)
        let r := trajLoop grid? depot entry delay rest depot (dleg.2 + 2)
        (go.1 ++ dw.1 ++ dleg.1 ++ [(dleg.2, depot), (dleg.2 + 1, depot)] ++ r.1,
          depot :: r.2)
      else
        let r := trajLoop grid? depot entry delay rest p.pickup_location dw.2
        (go.1 ++ dw.1 ++ r.1, r.2)

/-- `calculate_agent_trajectory` (src/collision_checker.py lines 6-114):
returns the minute-stamped trajectory and the depot-event list; an agent
with no routed products gets an empty trajectory.  A missing assigned depot
defaults to `[6, 5]` (lines 37-38). -/
def calculate_agent_trajectory (products_route : List TrajProduct) (entry_point : Cell)
    (start_delay : ℕ) (grid? : Option Grid) (assigned_depot? : Option Cell) :
    List (ℕ × Cell) × List Cell :=
  let depot := assigned_depot?.getD (6, 5)
  trajLoop grid? depot entry_point start_delay products_route entry_point start_delay

/-- The depot pool around the preparation point, `[6, 5]` itself excluded
(src/collision_checker.py lines 231-235). -/
def AVAILABLE_DEPOTS : List Cell :=
  [(5, 4), (6, 4), (7, 4), (5, 5), (7, 5), (5, 6), (6, 6), (7, 6)]

/-- Depot assignment (src/collision_checker.py lines 237-254): iterate the
agents in route order, giving each the first pool cell not yet used, and
`[6, 5]` once the pool is exhausted. -/
def assignDepots : List String → List Cell → List (String × Cell)
  | [], _ => []
  | rid :: rest, used =>
    match AVAILABLE_DEPOTS.filter (fun d => decide (d ∉ used)) with
    | [] => (rid, (6, 5)) :: assignDepots rest used
    | d :: _ => (rid, d) :: assignDepots rest (used ++ [d])

/-- `compute_all_trajectories` (src/collision_checker.py lines 257-274):
rebuild every agent's trajectory and depot events from the routes, the
current delays and the depot assignments. -/
def compute_all_trajectories (routes : List (String × List TrajProduct))
    (delays : List (String × ℕ)) (depots : List (String × Cell)) (entry : Cell)
    (grid? : Option Grid) : List (String × (List (ℕ × Cell) × List Cell)) :=
  routes.map fun r =>
    (r.1, calculate_agent_trajectory r.2 entry ((alookup delays r.1).getD 0) grid?
      (some ((alookup depots r.1).getD (6, 5))))

/-- Projection of `compute_all_trajectories` output to the trajectories. -/
def trajsOf (l : List (String × (List (ℕ × Cell) × List Cell))) :
    List (String × List (ℕ × Cell)) :=
  l.map fun p => (p.1, p.2.1)

/-- The common-minute scan of one agent pair in `detect_collisions`
(src/collision_checker.py lines 191-200); the iteration order over the
Python `set` intersection is unspecified, embedded here as the first
trajectory's stamp order (the collision multiset is order-independent). -/
def collideTimes (id1 id2 : String) (t1 t2 : List (ℕ × Cell)) :
    List (String × String × ℕ × Cell) :=
  t1.filterMap fun s =>
    match alookup t2 s.1 with
    | some pos2 => if s.2 = pos2 then some (id1, id2, s.1, s.2) else none
    | none => none

/-- `detect_collisions` (src/collision_checker.py lines 172-202): all
same-cell same-minute coincidences over unordered agent pairs. -/
def detect_collisions : List (String × List (ℕ × Cell)) →
    List (String × String × ℕ × Cell)
  | [] => []
  | (id1, t1) :: rest =>
    (rest.map fun r => collideTimes id1 r.1 t1 r.2).flatten ++ detect_collisions rest

/-- One `collision_counts` increment (src/collision_checker.py lines
310-313): dict insertion order is first-appearance order, so a new key is
appended and an existing key incremented in place. -/
def bumpCount (counts : List (String × ℕ)) (k : String) : List (String × ℕ) :=
  if counts.any fun p => decide (p.1 = k) then
    counts.map fun p => if p.1 = k then (p.1, p.2 + 1) else p
  else counts ++ [(k, 1)]

/-- `collision_counts`: each collision charges both participants. -/
def collision_counts (cols : List (String × String × ℕ × Cell)) : List (String × ℕ) :=
  cols.foldl (fun counts c => bumpCount (bumpCount counts c.1) c.2.1) []

/-- The running first-maximum of Python's `max(counts, key=counts.get)`:
a later key replaces the current best only on a strictly larger count. -/
def argmaxAux : String → ℕ → List (String × ℕ) → String × ℕ
  | bk, bv, [] => (bk, bv)
  | bk, bv, (k, v) :: rest => if v > bv then argmaxAux k v rest else argmaxAux bk bv rest

/-- `max(collision_counts, key=...)` (src/collision_checker.py line 316):
the first key attaining the maximal count, `none` on an empty dict. -/
def argmaxFirst : List (String × ℕ) → Option String
  | [] => none
  | (k, v) :: rest => some (argmaxAux k v rest).1

/-- `delays[victim] += 2` (src/collision_checker.py line 319). -/
def bumpDelay (delays : List (String × ℕ)) (victim : String) : List (String × ℕ) :=
  delays.map fun p => if p.1 = victim then (p.1, p.2 + 2) else p

/-- The collisions detected in one iteration of the resolution loop, for a
given delay table. -/
def iterationCollisions (routes : List (String × List TrajProduct))
    (depots : List (String × Cell)) (entry : Cell) (grid? : Option Grid)
    (delays : List (String × ℕ)) : List (String × String × ℕ × Cell) :=
  detect_collisions (trajsOf (compute_all_trajectories routes delays depots entry grid?))

/-- The collision-resolution loop (src/collision_checker.py lines 285-320):
recompute trajectories, stop when no collision remains, otherwise delay the
most-colliding agent by 2 minutes and iterate, for at most `max_iterations`
rounds. -/
def adjustLoop (routes : List (String × List TrajProduct))
    (depots : List (String × Cell)) (entry : Cell) (grid? : Option Grid) :
    ℕ → List (String × ℕ) → List (String × ℕ)
  | 0, delays => delays
  | fuel + 1, delays =>
    let cols := iterationCollisions routes depots entry grid? delays
    if cols = [] then delays
    else
      match argmaxFirst (collision_counts cols) with
      | none => delays
      | some victim => adjustLoop routes depots entry grid? fuel (bumpDelay delays victim)

/-- The initial all-zero delay table (src/collision_checker.py lines
277-282). -/
def zeroDelays (routes : List (String × List TrajProduct)) : List (String × ℕ) :=
  routes.map fun r => (r.1, 0)

/-- A stamp block starts its minute keys at `t`, keeps them contiguous, and
hands the clock over at `t'`. -/
def Stamped (t : ℕ) (l : List (ℕ × Cell)) (t' : ℕ) : Prop :=
  l.map Prod.fst = List.range' t l.length ∧ t' = t + l.length

/-- The concrete trajectory of a one-product route (pickup (1,2), entry and
depot both (1,1), no delay, Manhattan paths). -/
def demoTraj : List (ℕ × Cell) :=
  [(0, (1, 2)), (1, (1, 1)), (2, (1, 1)), (3, (1, 1)), (4, (1, 1))]

/-- A single-agent route set: no agent pair, hence no collision. -/
def routesSingle : List (String × List TrajProduct) :=
  [("Agent_A", [⟨(1, 2), 0, 1⟩])]

/-- Two agents with identical one-product routes: their trajectories
coincide minute by minute, so every minute is a collision. -/
def routesCollide : List (String × List TrajProduct) :=
  [("Agent_A", [⟨(3, 1), 0, 1⟩]), ("Agent_B", [⟨(3, 1), 0, 1⟩])]

/-! ## The distance oracle (src/distances.py) and the graph-theoretic
specification of A* used to prove it symmetric (C8) -/

/-- One admissible move of the grid graph: `v` is a traversable 4-neighbour
of `u` (the relation walked by `astar_path`). -/
def IsStep (grid : Grid) (u v : Cell) : Prop :=
  v ∈ get_neighbors u grid

/-- A walk through the grid graph from `a` to `b`: a non-empty cell list
headed by `a`, ending at `b`, each consecutive pair an admissible move. -/
def IsWalk (grid : Grid) (l : List Cell) (a b : Cell) : Prop :=
  l.head? = some a ∧ l.getLast? = some b ∧ l.Chain' (IsStep grid)

/-- `n` is the least number of moves of any walk from `a` to `b`. -/
def WalkDist (grid : Grid) (a b : Cell) (n : ℕ) : Prop :=
  (∃ l, IsWalk grid l a b ∧ l.length = n + 1) ∧
    ∀ l, IsWalk grid l a b → n + 1 ≤ l.length

/-- The finite set of in-bounds cells of a grid. -/
def cellBox (grid : Grid) : Finset Cell :=
  Finset.Icc (1 : ℤ) (gridWidth grid) ×ˢ Finset.Icc (1 : ℤ) (gridHeight grid)

/-- The number of in-bounds cells. -/
def boxSize (grid : Grid) : ℕ := gridWidth grid * gridHeight grid

/-- The potential of one cell: its current `g_score`, or `boxSize + 1` while
undiscovered.  Every push strictly decreases some cell's potential. -/
def potOf (grid : Grid) (st : AState) (c : Cell) : ℕ :=
  (alookup st.gScore c).getD (boxSize grid + 1)

/-- The loop variant: twice the summed cell potentials plus the open-set
size.  Each iteration of `astarLoop` strictly decreases it, which is what
makes `astarFuel` sufficient. -/
def phi (grid : Grid) (st : AState) : ℕ :=
  2 * (cellBox grid).sum (potOf grid st) + st.openSet.length

/-- The strengthened loop invariant of `astar_path` used for optimality and
completeness, on top of the validity invariant `VInv`: the goal is never
closed; closed cells carry exact shortest distances; expanding a closed cell
has left each neighbour a `g_score` within one step; every scored unclosed
cell still has a heap entry no costlier than `g + h`; every entry for a
non-start cell is at least its current `g + h`; and all `g` values are
bounded by the cell count. -/
structure OInv (grid : Grid) (start endp : Cell) (st : AState) : Prop where
  base : VInv grid start st
  endNC : endp ∉ st.closed
  closedSub : ∀ c ∈ st.closed, ∃ g, alookup st.gScore c = some g
  closedOpt : ∀ c ∈ st.closed, ∀ g, alookup st.gScore c = some g → WalkDist grid start c g
  closedExp : ∀ u ∈ st.closed, ∀ v, v ∈ get_neighbors u grid →
    ∃ gu gv, alookup st.gScore u = some gu ∧ alookup st.gScore v = some gv ∧ gv ≤ gu + 1
  openEntry : ∀ c g, alookup st.gScore c = some g → c ∉ st.closed →
    ∃ e, e ∈ st.openSet ∧ e.2.2 = c ∧ e.1 ≤ (g : ℤ) + manhattan_distance c endp
  entryLower : ∀ e ∈ st.openSet, e.2.2 ≠ start →
    ∃ g, alookup st.gScore e.2.2 = some g ∧ (g : ℤ) + manhattan_distance e.2.2 endp ≤ e.1
  gLe : ∀ c g, alookup st.gScore c = some g → g ≤ boxSize grid

/-- The invariant maintained while the neighbours of the freshly closed cell
`cur` are expanded: `OInv` with `closedExp` restricted to the previously
closed cells, plus the facts known about `cur` (just closed, optimal `g`,
within the cell-count bound). -/
structure ExpInv (grid : Grid) (start endp cur : Cell) (gcur : ℕ) (s : AState) : Prop where
  base : VInv grid start s
  endNC : endp ∉ s.closed
  curClosed : cur ∈ s.closed
  curG : alookup s.gScore cur = some gcur
  curOpt : WalkDist grid start cur gcur
  curBox : gcur + 1 ≤ boxSize grid
  closedSub : ∀ c ∈ s.closed, ∃ g, alookup s.gScore c = some g
  closedOpt : ∀ c ∈ s.closed, ∀ g, alookup s.gScore c = some g → WalkDist grid start c g
  closedExpOld : ∀ u ∈ s.closed, u ≠ cur → ∀ v, v ∈ get_neighbors u grid →
    ∃ gu gv, alookup s.gScore u = some gu ∧ alookup s.gScore v = some gv ∧ gv ≤ gu + 1
  openEntry : ∀ c g, alookup s.gScore c = some g → c ∉ s.closed →
    ∃ e, e ∈ s.openSet ∧ e.2.2 = c ∧ e.1 ≤ (g : ℤ) + manhattan_distance c endp
  entryLower : ∀ e ∈ s.openSet, e.2.2 ≠ start →
    ∃ g, alookup s.gScore e.2.2 = some g ∧ (g : ℤ) + manhattan_distance e.2.2 endp ≤ e.1
  gLe : ∀ c g, alookup s.gScore c = some g → g ≤ boxSize grid

/-- The per-pair distance used by `calculate_distance_matrix`
(src/distances.py lines 48-53): A* with the navigation grid when present,
plain Manhattan otherwise. -/
def matrix_distance (grid? : Option Grid) (fromPos toPos : Cell) : ℕ :=
  match grid? with
  | some g => calculate_distance fromPos toPos g
  | none => (manhattan_distance fromPos toPos).toNat

/-- The `(from, to) ↦ distance` table over all ordered pairs of locations
(src/distances.py lines 43-55), in iteration order. -/
def distancesTable (locations : List (String × Cell)) (grid? : Option Grid) :
    List ((String × String) × ℕ) :=
  (locations.map fun f =>
    locations.map fun t => ((f.1, t.1), matrix_distance grid? f.2 t.2)).flatten

/-- The dictionary returned by `calculate_distance_matrix`
(src/distances.py lines 57-62). -/
structure DistanceData where
  entry : Cell
  locations : List (String × Cell)
  distances : List ((String × String) × ℕ)
  grid : Option Grid

/-- `calculate_distance_matrix` (src/distances.py lines 4-62): the `entry`
location followed by each product's pickup location, and the all-pairs
table.  (When product ids collide, the Python dict keeps the last binding
where this association list keeps the first; both pick one consistent
position per id, which is all the symmetry statement relies on.) -/
def calculate_distance_matrix (products : List Product) (entry_point : Cell)
    (grid? : Option Grid) : DistanceData :=
  let locations : List (String × Cell) :=
    ("entry", entry_point) :: products.map fun p => (p.id, p.pickup_location)
  { entry := entry_point
    locations := locations
    distances := distancesTable locations grid?
    grid := grid? }

/-- The result dictionary of `check_and_adjust_collisions`
(src/collision_checker.py lines 329-335). -/
structure CollisionResult where
  trajectories : List (String × List (ℕ × Cell))
  collisions : List (String × String × ℕ × Cell)
  delays : List (String × ℕ)
  depot_positions : List (String × List Cell)
  depot_assignments : List (String × Cell)
deriving DecidableEq

/-- `check_and_adjust_collisions` (src/collision_checker.py lines 204-335):
assign depots, run the resolution loop from all-zero delays, then rebuild
the final trajectories and residual collisions. -/
def check_and_adjust_collisions (routes : List (String × List TrajProduct))
    (entry : Cell) (max_iterations : ℕ) (grid? : Option Grid) : CollisionResult :=
  let depots := assignDepots (routes.map Prod.fst) []
  let finalDelays := adjustLoop routes depots entry grid? max_iterations (zeroDelays routes)
  let finalAll := compute_all_trajectories routes finalDelays depots entry grid?
  { trajectories := trajsOf finalAll
    collisions := detect_collisions (trajsOf finalAll)
    delays := finalDelays
    depot_positions := finalAll.map fun p => (p.1, p.2.2)
    depot_assignments := depots }

end Optipick

namespace Optipick

/-! ## Basic lemmas: association lists, the heap, neighbours, grids -/

theorem alookup_cons {α β : Type} [DecidableEq α] (a : α) (b : β) (t : List (α × β)) (k : α) :
    alookup ((a, b) :: t) k = if a = k then some b else alookup t k := rfl

theorem alookup_mem {α β : Type} [DecidableEq α] {l : List (α × β)} {k : α} {v : β}
    (h : alookup l k = some v) : (k, v) ∈ l := by
  induction l with
  | nil => simp [alookup] at h
  | cons a t ih =>
    obtain ⟨a1, a2⟩ := a
    rw [alookup_cons] at h
    by_cases hk : a1 = k
    · rw [if_pos hk] at h
      subst hk
      cases h
      exact List.mem_cons_self _ _
    · rw [if_neg hk] at h
      exact List.mem_cons_of_mem _ (ih h)

theorem alookup_cons_exists {α β : Type} [DecidableEq α] {t : List (α × β)} {k : α}
    (a : α) (b : β) (h : ∃ v, alookup t k = some v) :
    ∃ v, alookup ((a, b) :: t) k = some v := by
  rw [alookup_cons]
  by_cases hk : a = k
  · exact ⟨b, if_pos hk⟩
  · rw [if_neg hk]; exact h

theorem popMin_eq_none {l : List HeapEntry} (h : popMin l = none) : l = [] := by
  cases l with
  | nil => rfl
  | cons a t =>
    simp only [popMin] at h
    cases hp : popMin t with
    | none => rw [hp] at h; exact absurd h (by simp)
    | some p =>
      obtain ⟨m, r⟩ := p
      rw [hp] at h
      by_cases hlt : heapLt m a <;> simp [hlt] at h

theorem popMin_perm : ∀ {l : List HeapEntry} {e : HeapEntry} {rest : List HeapEntry},
    popMin l = some (e, rest) → l.Perm (e :: rest) := by
  intro l
  induction l with
  | nil => intro e rest h; simp [popMin] at h
  | cons a t ih =>
    intro e rest h
    simp only [popMin] at h
    cases hp : popMin t with
    | none =>
      rw [hp] at h
      obtain rfl := popMin_eq_none hp
      simp only [Option.some.injEq, Prod.mk.injEq] at h
      obtain ⟨rfl, rfl⟩ := h
      exact List.Perm.refl _
    | some p =>
      obtain ⟨m, r⟩ := p
      rw [hp] at h
      have h' : (if heapLt m a then some (m, a :: r) else some (a, t)) = some (e, rest) := h
      by_cases hlt : heapLt m a
      · rw [if_pos hlt] at h'
        simp only [Option.some.injEq, Prod.mk.injEq] at h'
        obtain ⟨rfl, rfl⟩ := h'
        exact (List.Perm.cons a (ih hp)).trans (List.Perm.swap m a r)
      · rw [if_neg hlt] at h'
        simp only [Option.some.injEq, Prod.mk.injEq] at h'
        obtain ⟨rfl, rfl⟩ := h'
        exact List.Perm.refl _

theorem of_mem_get_neighbors {q p : Cell} {grid : Grid} (h : q ∈ get_neighbors p grid) :
    cellVal grid q = some 1 ∧ manhattan_distance p q = 1 := by
  simp only [get_neighbors, List.mem_filterMap] at h
  obtain ⟨d, hd, hq⟩ := h
  by_cases hv : cellVal grid (p.1 + d.1, p.2 + d.2) = some 1
  · rw [if_pos hv] at hq
    cases hq
    refine ⟨hv, ?_⟩
    simp only [List.mem_cons, List.not_mem_nil, or_false] at hd
    rcases hd with rfl | rfl | rfl | rfl <;> simp [manhattan_distance]
  · rw [if_neg hv] at hq
    cases hq

theorem get_neighbors_ne {q p : Cell} {grid : Grid} (h : q ∈ get_neighbors p grid) :
    q ≠ p := by
  intro hqp
  subst hqp
  have := (of_mem_get_neighbors h).2
  simp [manhattan_distance] at this

theorem validGrid_cellVal {grid : Grid} (hg : ValidGrid grid) {p : Cell}
    (hb : inBoundsB grid p = true) :
    cellVal grid p = some 0 ∨ cellVal grid p = some 1 := by
  obtain ⟨hrect, h01⟩ := hg
  unfold cellVal
  rw [if_pos hb]
  unfold inBoundsB at hb
  simp only [Bool.and_eq_true, decide_eq_true_eq] at hb
  obtain ⟨⟨⟨h1, h2⟩, h3⟩, h4⟩ := hb
  have hiy : ((gridHeight grid : Int) - p.2).toNat < grid.length := by
    have : gridHeight grid = grid.length := rfl
    omega
  rw [List.get?_eq_get hiy]
  set row := grid.get ⟨((gridHeight grid : Int) - p.2).toNat, hiy⟩ with hrow
  have hrmem : row ∈ grid := List.get_mem grid _ _
  have hix : ((p.1 : Int) - 1).toNat < row.length := by
    rw [hrect row hrmem]
    omega
  show row.get? (p.1 - 1).toNat = some 0 ∨ row.get? (p.1 - 1).toNat = some 1
  rw [List.get?_eq_get hix]
  rcases h01 row hrmem _ (List.get_mem row _ _) with h0 | h1'
  · exact Or.inl (by rw [h0])
  · exact Or.inr (by rw [h1'])

/-! ## Path validity of `astar_path` (C3) -/

theorem vinv_init (grid : Grid) (start : Cell) : VInv grid start (astarInit start) := by
  refine ⟨?_, ?_, ?_, ?_, ?_, ?_⟩
  · simp [astarInit, alookup]
  · simp [astarInit, alookup]
  · intro n c h
    simp [astarInit, alookup] at h
  · intro n gn h hne
    simp only [astarInit, alookup] at h
    by_cases hs : start = n
    · exact absurd hs.symm hne
    · rw [if_neg hs] at h; cases h
  · intro pr hpr
    simp only [astarInit, List.mem_singleton] at hpr
    subst hpr
    simp [astarInit]
  · intro e he
    simp only [astarInit, List.mem_singleton] at he
    subst he
    exact ⟨0, by simp [alookup]⟩

theorem expandOne_gScore_cur {endp cur : Cell} {st : AState} {nb : Cell}
    (hne : nb ≠ cur) :
    alookup (expandOne endp cur st nb).gScore cur = alookup st.gScore cur := by
  unfold expandOne
  by_cases hcl : nb ∈ st.closed
  · rw [if_pos hcl]
  · rw [if_neg hcl]
    by_cases him : improvesB st cur nb
    · rw [if_pos him]
      simp only [alookup_cons, if_neg hne]
    · rw [if_neg him]

theorem vinv_expandOne {grid : Grid} {start endp cur : Cell} {st : AState} {nb : Cell}
    (hinv : VInv grid start st)
    (hnb : nb ∈ get_neighbors cur grid)
    (hcur : ∃ g, alookup st.gScore cur = some g) :
    VInv grid start (expandOne endp cur st nb) := by
  obtain ⟨gcur, hgcur⟩ := hcur
  unfold expandOne
  by_cases hcl : nb ∈ st.closed
  · rw [if_pos hcl]; exact hinv
  rw [if_neg hcl]
  by_cases him : improvesB st cur nb
  swap
  · rw [if_neg him]; exact hinv
  rw [if_pos him]
  have htg : tentativeG st cur = gcur + 1 := by
    unfold tentativeG; rw [hgcur]; rfl
  have hnbcur : nb ≠ cur := get_neighbors_ne hnb
  have hnbstart : nb ≠ start := by
    intro hns
    subst hns
    unfold improvesB at him
    rw [hinv.gStart] at him
    simp only [decide_eq_true_eq] at him
    omega
  have himp : ∀ g, alookup st.gScore nb = some g → tentativeG st cur < g := by
    intro g hgl
    unfold improvesB at him
    rw [hgl] at him
    simpa using him
  refine ⟨?_, ?_, ?_, ?_, ?_, ?_⟩
  · simp only [alookup_cons, if_neg hnbstart]
    exact hinv.gStart
  · simp only [alookup_cons, if_neg hnbstart]
    exact hinv.cfStart
  · intro n c h
    simp only [alookup_cons] at h
    by_cases hn : nb = n
    · rw [if_pos hn] at h
      cases h
      subst hn
      refine ⟨hnb, tentativeG st cur, gcur, ?_, ?_, ?_⟩
      · simp [alookup_cons]
      · simp only [alookup_cons, if_neg hnbcur]
        exact hgcur
      · omega
    · rw [if_neg hn] at h
      obtain ⟨hmem, gn, gc, hg1, hg2, hg3⟩ := hinv.cfChain n c h
      refine ⟨hmem, gn, ?_⟩
      simp only [alookup_cons, if_neg hn]
      by_cases hc : nb = c
      · refine ⟨tentativeG st cur, hg1, by rw [if_pos hc], ?_⟩
        subst hc
        have := himp gc hg2
        omega
      · exact ⟨gc, hg1, by rw [if_neg hc]; exact hg2, hg3⟩
  · intro n gn h hne
    simp only [alookup_cons] at h ⊢
    by_cases hn : nb = n
    · exact ⟨cur, by rw [if_pos hn]⟩
    · rw [if_neg hn] at h
      obtain ⟨c, hc⟩ := hinv.gCf n gn h hne
      exact ⟨c, by rw [if_neg hn]; exact hc⟩
  · intro pr hpr
    simp only [List.length_cons]
    rcases List.mem_cons.mp hpr with rfl | hmem
    · have : gcur < st.gScore.length := hinv.gBound _ (alookup_mem hgcur)
      simp only [htg]
      omega
    · have := hinv.gBound _ hmem
      omega
  · intro e he
    rcases List.mem_cons.mp he with rfl | hmem
    · exact ⟨tentativeG st cur, by simp [alookup_cons]⟩
    · exact alookup_cons_exists _ _ (hinv.openG e hmem)

theorem vinv_foldl {grid : Grid} {start endp cur : Cell} :
    ∀ (nbs : List Cell) (st : AState),
      (∀ nb ∈ nbs, nb ∈ get_neighbors cur grid) →
      VInv grid start st → (∃ g, alookup st.gScore cur = some g) →
      VInv grid start (nbs.foldl (expandOne endp cur) st) := by
  intro nbs
  induction nbs with
  | nil => intro st _ hinv _; exact hinv
  | cons nb t ih =>
    intro st hmem hinv hcur
    simp only [List.foldl_cons]
    have hnb : nb ∈ get_neighbors cur grid := hmem nb (List.mem_cons_self _ _)
    apply ih
    · intro x hx; exact hmem x (List.mem_cons_of_mem _ hx)
    · exact vinv_expandOne hinv hnb hcur
    · rw [expandOne_gScore_cur (get_neighbors_ne hnb)]
      exact hcur

theorem reconstruct_spec {grid : Grid} {start : Cell} {cameFrom : List (Cell × Cell)}
    {gScore : List (Cell × Nat)}
    (hcf : ∀ n c, alookup cameFrom n = some c →
      n ∈ get_neighbors c grid ∧
        ∃ gn gc, alookup gScore n = some gn ∧ alookup gScore c = some gc ∧ gc < gn)
    (hgcf : ∀ n gn, alookup gScore n = some gn → n ≠ start →
      ∃ c, alookup cameFrom n = some c) :
    ∀ (fuel : Nat) (node : Cell) (gn : Nat),
      alookup gScore node = some gn → gn < fuel →
      (reconstruct fuel cameFrom node).head? = some node ∧
      (reconstruct fuel cameFrom node).getLast? = some start ∧
      List.Chain' (fun n c => n ∈ get_neighbors c grid) (reconstruct fuel cameFrom node) := by
  intro fuel
  induction fuel with
  | zero => intro node gn _ h; omega
  | succ fuel ih =>
    intro node gn hg hlt
    cases hcfn : alookup cameFrom node with
    | none =>
      have hns : node = start := by
        by_contra hne
        obtain ⟨c, hc⟩ := hgcf node gn hg hne
        rw [hc] at hcfn
        cases hcfn
      subst hns
      simp [reconstruct, hcfn]
    | some c =>
      obtain ⟨hmem, gn', gc, hg', hgc, hlt'⟩ := hcf _ _ hcfn
      have hgg : gn' = gn := by rw [hg] at hg'; cases hg'; rfl
      have hfc : gc < fuel := by omega
      obtain ⟨ih1, ih2, ih3⟩ := ih c gc hgc hfc
      have hre : reconstruct (fuel + 1) cameFrom node = node :: reconstruct fuel cameFrom c := by
        simp [reconstruct, hcfn]
      rw [hre]
      cases hr : reconstruct fuel cameFrom c with
      | nil => rw [hr] at ih1; cases ih1
      | cons r0 rt =>
        rw [hr] at ih1 ih2 ih3
        have hr0 : r0 = c := by
          simp only [List.head?_cons, Option.some.injEq] at ih1
          exact ih1
        subst hr0
        refine ⟨rfl, ?_, ?_⟩
        · rw [List.getLast?_cons_cons]
          exact ih2
        · rw [List.chain'_cons]
          exact ⟨hmem, ih3⟩

theorem astarLoop_valid {grid : Grid} {start endp : Cell} {path : List Cell} :
    ∀ (fuel : Nat) (st : AState), VInv grid start st →
      astarLoop grid endp fuel st = some path →
      path.head? = some start ∧ path.getLast? = some endp ∧
      List.Chain' (fun p q : Cell => q ∈ get_neighbors p grid) path := by
  intro fuel
  induction fuel with
  | zero => intro st _ h; simp [astarLoop] at h
  | succ fuel ih =>
    intro st hinv h
    rw [astarLoop] at h
    cases hp : popMin st.openSet with
    | none => rw [hp] at h; cases h
    | some pr =>
      obtain ⟨⟨f, cnt, cur⟩, rest⟩ := pr
      rw [hp] at h
      replace h :
          (if cur = endp then
            some (reconstruct st.gScore.length st.cameFrom endp).reverse
          else
            astarLoop grid endp fuel
              ((get_neighbors cur grid).foldl (expandOne endp cur)
                { st with openSet := rest, closed := cur :: st.closed })) = some path := h
      by_cases hce : cur = endp
      · rw [if_pos hce] at h
        have hmem : (f, cnt, cur) ∈ st.openSet :=
          (popMin_perm hp).mem_iff.mpr (List.mem_cons_self _ _)
        obtain ⟨gend, hgend⟩ := hinv.openG _ hmem
        rw [hce] at hgend
        have hbound : gend < st.gScore.length := hinv.gBound _ (alookup_mem hgend)
        obtain ⟨h1, h2, h3⟩ :=
          reconstruct_spec hinv.cfChain hinv.gCf st.gScore.length endp gend hgend hbound
        cases h
        refine ⟨?_, ?_, ?_⟩
        · rw [List.head?_reverse]; exact h2
        · rw [List.getLast?_reverse]; exact h1
        · rw [List.chain'_reverse]; exact h3
      · rw [if_neg hce] at h
        have hrest : ∀ e ∈ rest, e ∈ st.openSet := by
          intro e he
          exact (popMin_perm hp).mem_iff.mpr (List.mem_cons_of_mem _ he)
        obtain ⟨gcur, hgcur⟩ := hinv.openG _ ((popMin_perm hp).mem_iff.mpr (List.mem_cons_self _ _))
        apply ih _ _ h
        apply vinv_foldl _ _ (fun nb hnb => hnb)
        · exact ⟨hinv.gStart, hinv.cfStart, hinv.cfChain, hinv.gCf, hinv.gBound,
            fun e he => hinv.openG e (hrest e he)⟩
        · exact ⟨gcur, hgcur⟩

theorem chain_strengthen {grid : Grid} :
    ∀ (l : List Cell), List.Chain' (fun p q => q ∈ get_neighbors p grid) l →
      (∀ h0, l.head? = some h0 → cellVal grid h0 = some 1) →
      List.Chain' (fun p q : Cell =>
        manhattan_distance p q = 1 ∧ cellVal grid p = some 1 ∧ cellVal grid q = some 1) l := by
  intro l
  induction l with
  | nil => intro _ _; exact List.chain'_nil
  | cons a t ih =>
    intro hch hh
    cases t with
    | nil => exact List.chain'_singleton _
    | cons b u =>
      rw [List.chain'_cons] at hch
      obtain ⟨hab, hrest⟩ := hch
      obtain ⟨hb1, hadj⟩ := of_mem_get_neighbors hab
      have ha1 : cellVal grid a = some 1 := hh a rfl
      rw [List.chain'_cons]
      refine ⟨⟨hadj, ha1, hb1⟩, ?_⟩
      apply ih hrest
      intro h0 hh0
      simp only [List.head?_cons, Option.some.injEq] at hh0
      subst hh0
      exact hb1

/-- C3: whenever `astar_path` succeeds on a well-formed navigation grid, the
returned path starts at `start`, ends at `goal`, every pair of consecutive
cells is 4-adjacent (Manhattan distance 1) with both cells traversable, and
`calculate_distance` on the same inputs returns the path length minus one. -/
theorem astar_path_valid (start endp : Cell) (grid : Grid) (path : List Cell)
    (hg : ValidGrid grid) (h : astar_path start endp grid = some path) :
    path.head? = some start ∧ path.getLast? = some endp ∧
    List.Chain' (fun p q : Cell =>
      manhattan_distance p q = 1 ∧ cellVal grid p = some 1 ∧ cellVal grid q = some 1) path ∧
    calculate_distance start endp grid = path.length - 1 := by
  have hdist : calculate_distance start endp grid = path.length - 1 := by
    unfold calculate_distance; rw [h]
  by_cases hse : start = endp
  · subst hse
    unfold astar_path at h
    rw [if_pos rfl] at h
    cases h
    exact ⟨rfl, rfl, List.chain'_singleton _, hdist⟩
  · unfold astar_path at h
    rw [if_neg hse] at h
    by_cases hb1 : inBoundsB grid start
    swap
    · rw [if_pos (by simpa using hb1)] at h; cases h
    by_cases hb2 : inBoundsB grid endp
    swap
    · rw [if_neg (by simpa using hb1), if_pos (by simpa using hb2)] at h; cases h
    by_cases hc1 : cellVal grid start = some 0
    · rw [if_neg (by simpa using hb1), if_neg (by simpa using hb2), if_pos hc1] at h; cases h
    by_cases hc2 : cellVal grid endp = some 0
    · rw [if_neg (by simpa using hb1), if_neg (by simpa using hb2), if_neg hc1,
        if_pos hc2] at h
      cases h
    rw [if_neg (by simpa using hb1), if_neg (by simpa using hb2), if_neg hc1, if_neg hc2] at h
    have hstart1 : cellVal grid start = some 1 := by
      rcases validGrid_cellVal hg hb1 with h0 | h1
      · exact absurd h0 hc1
      · exact h1
    obtain ⟨hh, hl, hch⟩ := astarLoop_valid _ _ (vinv_init grid start) h
    refine ⟨hh, hl, ?_, hdist⟩
    apply chain_strengthen _ hch
    intro h0 hh0
    rw [hh] at hh0
    cases hh0
    exact hstart1

/-- C3 witness: the validity contract evaluated on the source's own 5×5 test
grid, from (1,1) to (5,1). -/
theorem astar_path_valid_witness :
    (([(1, 1), (2, 1), (3, 1), (4, 1), (5, 1)] : List Cell)).head? = some (1, 1) ∧
    (([(1, 1), (2, 1), (3, 1), (4, 1), (5, 1)] : List Cell)).getLast? = some (5, 1) ∧
    List.Chain' (fun p q : Cell =>
      manhattan_distance p q = 1 ∧ cellVal demoGrid p = some 1 ∧ cellVal demoGrid q = some 1)
      ([(1, 1), (2, 1), (3, 1), (4, 1), (5, 1)] : List Cell) ∧
    calculate_distance (1, 1) (5, 1) demoGrid = 4 :=
  astar_path_valid (1, 1) (5, 1) demoGrid _ (by unfold ValidGrid; decide) (by decide)

/-- C7 amended, positive part: when `start ≠ goal`, an out-of-bounds or
blocked endpoint makes `astar_path` signal "no path". -/
theorem astar_path_rejects_bad_endpoints (start endp : Cell) (grid : Grid)
    (hne : start ≠ endp)
    (hbad : inBoundsB grid start = false ∨ inBoundsB grid endp = false ∨
      cellVal grid start = some 0 ∨ cellVal grid endp = some 0) :
    astar_path start endp grid = none := by
  unfold astar_path
  rcases hbad with h | h | h | h <;>
    simp only [if_neg hne] <;>
    by_cases h1 : inBoundsB grid start <;>
    by_cases h2 : inBoundsB grid endp <;>
    by_cases h3 : cellVal grid start = some 0 <;>
    by_cases h4 : cellVal grid endp = some 0 <;>
    simp_all

/-- C7 witness: a concrete rejected input, goal out of the 1×1 grid's bounds. -/
theorem astar_path_rejects_bad_endpoints_witness :
    astar_path (1, 1) (3, 3) [[1]] = none :=
  astar_path_rejects_bad_endpoints (1, 1) (3, 3) [[1]] (by decide)
    (Or.inr (Or.inl (by decide)))

/-- C7 counterexample: with `start = goal` on a blocked cell, `astar_path`
returns the one-cell path rather than the failure value, because the
`start == end` short-circuit precedes the blocked-cell checks. -/
theorem astar_path_blocked_start_eq_goal :
    cellVal ([[0]] : Grid) (1, 1) = some 0 ∧
      astar_path (1, 1) (1, 1) [[0]] = some [(1, 1)] := by
  constructor
  · decide
  · rfl

/-! ## Optimizer claims (C1, C2, C4, C10) -/

theorem weightCap_of_bound {nP nA : ℕ} (inst : OptInstance nP nA) (s : Solution nP nA)
    (hw : ∀ i : Fin nP, 0 ≤ weight_g (inst.units i).product_data)
    (h : ∀ a : Fin nA,
      (∑ i : Fin nP, weight_g (inst.units i).product_data) ≤ capacity_g (inst.agents a)) :
    weightCap inst s := by
  intro a t ht hex
  refine le_trans ?_ (h a)
  exact Finset.sum_le_sum_of_subset_of_nonneg (Finset.filter_subset _ _) fun i _ _ => hw i

theorem feasible_instFood : Feasible instFood solFood := by
  refine ⟨by decide, by decide, by decide, by decide, by decide, by decide, ?_, by decide,
    by decide, by decide, by decide, by decide, by decide⟩
  apply weightCap_of_bound
  · intro i
    fin_cases i
    norm_num [weight_g, instFood, foodProduct]
  · intro a
    fin_cases a <;>
      norm_num [weight_g, capacity_g, instFood, foodProduct, robotAgent, humanAgent,
        Fin.sum_univ_one, Matrix.cons_val_zero, Matrix.cons_val_one, Matrix.head_cons]

theorem feasible_instRobot : Feasible instRobot solRobot := by
  refine ⟨by decide, by decide, by decide, by decide, by decide, by decide, ?_, by decide,
    by decide, by decide, by decide, by decide, by decide⟩
  apply weightCap_of_bound
  · intro i
    fin_cases i
    norm_num [weight_g, instRobot, plainProduct]
  · intro a
    fin_cases a <;>
      norm_num [weight_g, capacity_g, instRobot, plainProduct, robotAgent, humanAgent,
        Fin.sum_univ_one, Matrix.cons_val_zero, Matrix.cons_val_one, Matrix.head_cons]

theorem travel_time_demo : travel_time 4 (3 / 2) = 1 := by
  unfold travel_time
  norm_num

theorem timingBlock_instGap : timingBlock instGap solGap := by
  intro a i j hij hci hcj
  fin_cases a
  fin_cases i <;> fin_cases j
  · exact absurd rfl hij
  · refine ⟨fun _ => ⟨by decide, by decide, by decide⟩, fun h1 h2 => ?_, fun h1 h2 => ?_⟩
    · norm_num [solGap, instGap, unitPid, aisleProductA, aisleProductB, humanAgent,
        PICKING_TIME, travel_time_demo, Matrix.cons_val_zero, Matrix.cons_val_one,
        Matrix.head_cons]
    · exact absurd h2 (by decide)
  · refine ⟨fun _ => ⟨by decide, by decide, by decide⟩, fun h1 _ => (by decide : ¬ _) h1 |>.elim,
      fun h1 _ => (by decide : ¬ _) h1 |>.elim⟩
  · exact absurd rfl hij

theorem feasible_instGap : Feasible instGap solGap := by
  refine ⟨by decide, by decide, by decide, timingBlock_instGap, by decide, by decide, ?_,
    by decide, by decide, by decide, by decide, by decide, by decide⟩
  apply weightCap_of_bound
  · intro i
    fin_cases i <;>
      norm_num [weight_g, instGap, aisleProductA, aisleProductB, Matrix.cons_val_zero,
        Matrix.cons_val_one, Matrix.head_cons]
  · intro a
    fin_cases a
    norm_num [weight_g, capacity_g, instGap, aisleProductA, aisleProductB, humanAgent,
      Fin.sum_univ_two, Matrix.cons_val_zero, Matrix.cons_val_one, Matrix.head_cons]

/-- C1 counterexample: a feasible plan in which a unit stored in a
robot-accessible zone is carried by the human, because the unit is a food
product and so no robot assignment variable exists for it. -/
theorem robot_zone_claim_counterexample :
    Feasible instFood solFood ∧
    (instFood.units 0).product_data.location ∈ instFood.zones.robot_accessible_storage ∧
    solFood.assign 0 1 = true ∧
    (instFood.agents 1).type = "human" := by
  refine ⟨feasible_instFood, by decide, by decide, by decide⟩

/-- C1 amended: in every feasible plan, a unit located in robot-accessible
storage that at least one robot can handle is assigned only to agents of
type robot. -/
theorem robot_zone_forcing {nP nA : ℕ} (inst : OptInstance nP nA) (s : Solution nP nA)
    (hf : Feasible inst s) (i : Fin nP)
    (hloc : (inst.units i).product_data.location ∈ inst.zones.robot_accessible_storage)
    (hrobot : ∃ a, (inst.agents a).type = "robot" ∧ canH inst i a = true)
    (a : Fin nA) (ha : s.assign i a = true) :
    (inst.agents a).type = "robot" := by
  obtain ⟨hcompat, _, _, _, huniq, hrz, _⟩ := hf
  have hcard1 := hrz i hloc hrobot
  have hcanHa : canH inst i a = true := hcompat i a ha
  have hcard2 := huniq i ⟨a, hcanHa⟩
  obtain ⟨r, hr⟩ := Finset.card_eq_one.mp hcard1
  obtain ⟨u, hu⟩ := Finset.card_eq_one.mp hcard2
  have hrmem : r ∈ Finset.univ.filter fun b =>
      (inst.agents b).type = "robot" ∧ canH inst i b = true ∧ s.assign i b = true := by
    rw [hr]; exact Finset.mem_singleton_self r
  rw [Finset.mem_filter] at hrmem
  obtain ⟨-, hrtype, hrcan, hrassign⟩ := hrmem
  have hamem : a ∈ Finset.univ.filter fun b => canH inst i b = true ∧ s.assign i b = true :=
    Finset.mem_filter.mpr ⟨Finset.mem_univ _, hcanHa, ha⟩
  have hrmem2 : r ∈ Finset.univ.filter fun b => canH inst i b = true ∧ s.assign i b = true :=
    Finset.mem_filter.mpr ⟨Finset.mem_univ _, hrcan, hrassign⟩
  rw [hu, Finset.mem_singleton] at hamem hrmem2
  rw [hamem, ← hrmem2]
  exact hrtype

/-- C1 witness: on `instRobot` the forcing theorem applies and yields that
the assigned agent is the robot. -/
theorem robot_zone_forcing_witness : (instRobot.agents 0).type = "robot" :=
  robot_zone_forcing instRobot solRobot feasible_instRobot 0 (by decide)
    ⟨0, by decide, by decide⟩ 0 (by decide)

/-- C10: `can_agent_handle_product` is false for every (robot, food-product)
pair, and consequently in every feasible plan no food unit is assigned to a
robot. -/
theorem no_food_on_robots :
    (∀ (agent : Agent) (product : Product) (z : ZonesAccess),
      agent.type = "robot" → product.category = "food" →
      can_agent_handle_product agent product z = false) ∧
    (∀ {nP nA : ℕ} (inst : OptInstance nP nA) (s : Solution nP nA), Feasible inst s →
      ∀ (i : Fin nP) (a : Fin nA), (inst.units i).product_data.category = "food" →
        s.assign i a = true → (inst.agents a).type ≠ "robot") := by
  have h1 : ∀ (agent : Agent) (product : Product) (z : ZonesAccess),
      agent.type = "robot" → product.category = "food" →
      can_agent_handle_product agent product z = false := by
    intro agent product z hrobot hfood
    unfold can_agent_handle_product
    rw [if_pos hrobot]
    by_cases hloc : product.location ∉ z.robot_accessible_storage
    · rw [if_pos hloc]
    · rw [if_neg hloc, if_pos hfood]
  refine ⟨h1, ?_⟩
  intro nP nA inst s hf i a hfood ha htype
  obtain ⟨hcompat, _⟩ := hf
  have hcan : canH inst i a = true := hcompat i a ha
  rw [canH, h1 _ _ _ htype hfood] at hcan
  cases hcan

/-- C10 witness: the theorem applied to the concrete food instance. -/
theorem no_food_on_robots_witness :
    can_agent_handle_product robotAgent foodProduct zonesDemo = false ∧
    (instFood.agents 1).type ≠ "robot" :=
  ⟨no_food_on_robots.1 robotAgent foodProduct zonesDemo rfl rfl,
    no_food_on_robots.2 instFood solFood feasible_instFood 0 1 (by decide) (by decide)⟩

/-- C4: in every feasible plan, two distinct units on the same agent and the
same trip with `visit i < visit j` are separated by at least the tabulated
travel time `⌊d·3∕(speed·60)⌋ + 1` plus the 1-minute picking time. -/
theorem same_trip_travel_gap {nP nA : ℕ} (inst : OptInstance nP nA) (s : Solution nP nA)
    (hf : Feasible inst s) (a : Fin nA) (i j : Fin nP) (hij : i ≠ j)
    (hspeed : 0 < (inst.agents a).speed)
    (hai : s.assign i a = true) (haj : s.assign j a = true)
    (htrip : s.trip i a = s.trip j a) (hvisit : s.visit i < s.visit j) :
    s.visit j ≥ s.visit i +
      (⌊((inst.dist (unitPid inst i) (unitPid inst j) : ℚ) * 3) /
          ((inst.agents a).speed * 60)⌋ + 1) + PICKING_TIME := by
  obtain ⟨hcompat, _, _, htiming, _⟩ := hf
  have hci : canH inst i a = true := hcompat i a hai
  have hcj : canH inst j a = true := hcompat j a haj
  obtain ⟨hpins_ij, htime_ij, -⟩ := htiming a i j hij hci hcj
  obtain ⟨hpins_ji, htime_ji_same, htime_ji_diff⟩ :=
    htiming a j i (fun h => hij h.symm) hcj hci
  obtain ⟨hbne, hst_true, hst_false⟩ := hpins_ij ⟨hai, haj⟩
  obtain ⟨-, hst_true', hst_false'⟩ := hpins_ji ⟨haj, hai⟩
  have hfloor : ∀ d : ℤ, 0 ≤ d → 0 ≤ ⌊((d : ℚ) * 3) / ((inst.agents a).speed * 60)⌋ := by
    intro d hd
    apply Int.floor_nonneg.mpr
    apply div_nonneg
    · have : (0 : ℚ) ≤ (d : ℚ) := by exact_mod_cast hd
      linarith
    · have h60 : (0 : ℚ) < (inst.agents a).speed * 60 := by positivity
      linarith
  have hbij : s.before i j a = true := by
    cases hb : s.before i j a with
    | true => rfl
    | false =>
      exfalso
      have hbji : s.before j i a = true := by
        cases hb' : s.before j i a with
        | true => rfl
        | false => exact (hbne (hb.trans hb'.symm)).elim
      cases hsji : s.sameTrip j i a with
      | false => exact hst_false' hsji htrip.symm
      | true =>
        have hge := htime_ji_same hbji hsji
        rw [travel_time] at hge
        have h0 : 0 ≤ ⌊(((inst.dist (unitPid inst j) (unitPid inst i) : ℤ) : ℚ) * 3) /
            ((inst.agents a).speed * 60)⌋ :=
          hfloor _ (by positivity)
        unfold PICKING_TIME at hge
        omega
  have hsij : s.sameTrip i j a = true := by
    cases hs : s.sameTrip i j a with
    | true => rfl
    | false => exact absurd htrip (hst_false hs)
  have hge := htime_ij hbij hsij
  rw [travel_time] at hge
  have hcast : ((inst.dist (unitPid inst i) (unitPid inst j) : ℤ) : ℚ) =
      ((inst.dist (unitPid inst i) (unitPid inst j) : ℕ) : ℚ) := by push_cast; ring
  rw [hcast] at hge
  exact hge

/-- C4 witness: the travel-gap theorem evaluated on the concrete two-unit
plan `solGap` (distance 4 cells, speed 1.5 m/s, so the gap is 1 + 1). -/
theorem same_trip_travel_gap_witness :
    solGap.visit 1 ≥ solGap.visit 0 +
      (⌊((instGap.dist (unitPid instGap 0) (unitPid instGap 1) : ℚ) * 3) /
          ((instGap.agents 0).speed * 60)⌋ + 1) + PICKING_TIME :=
  same_trip_travel_gap instGap solGap feasible_instGap 0 0 1 (by decide)
    (by norm_num [instGap, humanAgent, Matrix.cons_val_zero])
    (by decide) (by decide) (by decide) (by decide)

/-- C2 counterexample: on a solver status that proves infeasibility, the
returned status field is `'no_solution'`, not `'infeasible'`. -/
theorem infeasible_status_counterexample :
    (optimize_result CpStatus.INFEASIBLE ([] : List Nat) []).status = "no_solution" ∧
    (optimize_result CpStatus.INFEASIBLE ([] : List Nat) []).status ≠ "infeasible" := by
  refine ⟨rfl, by decide⟩

/-- C2 amended: on any non-OPTIMAL, non-FEASIBLE solver status the optimizer
returns status `'no_solution'` with no routes key (no partial plan), and
`run_optimization` maps any non-success status to an `'error'` result. -/
theorem no_solution_branch {ρ : Type} (st : CpStatus) (routes : ρ)
    (hca : List (String × String))
    (h1 : st ≠ CpStatus.OPTIMAL) (h2 : st ≠ CpStatus.FEASIBLE) :
    (optimize_result st routes hca).status = "no_solution" ∧
    (optimize_result st routes hca).agents_routes = none ∧
    run_optimization_gate (optimize_result st routes hca) = some "error" := by
  unfold optimize_result
  rw [if_neg (by tauto)]
  refine ⟨rfl, rfl, ?_⟩
  rfl

/-- C2 witness: the no-solution branch evaluated at the INFEASIBLE status. -/
theorem no_solution_branch_witness :
    (optimize_result CpStatus.INFEASIBLE ([] : List Nat) []).status = "no_solution" ∧
    (optimize_result CpStatus.INFEASIBLE ([] : List Nat) []).agents_routes = none ∧
    run_optimization_gate (optimize_result CpStatus.INFEASIBLE ([] : List Nat) []) =
      some "error" :=
  no_solution_branch CpStatus.INFEASIBLE [] [] (by decide) (by decide)

/-! ## Trajectory structure (C9) -/

theorem range'_append_one (s m n : ℕ) :
    List.range' s m ++ List.range' (s + m) n = List.range' s (m + n) := by
  simp [List.range'_append, Nat.add_comm]

theorem Stamped.append {t t1 t2 : ℕ} {l1 l2 : List (ℕ × Cell)}
    (h1 : Stamped t l1 t1) (h2 : Stamped t1 l2 t2) : Stamped t (l1 ++ l2) t2 := by
  obtain ⟨hk1, ht1⟩ := h1
  obtain ⟨hk2, ht2⟩ := h2
  subst ht1
  subst ht2
  refine ⟨?_, by rw [List.length_append]; omega⟩
  rw [List.map_append, hk1, hk2, List.length_append, range'_append_one]

theorem stamped_nil (t : ℕ) : Stamped t [] t :=
  ⟨rfl, (Nat.add_zero t).symm⟩

theorem stamped_single (t : ℕ) (c : Cell) : Stamped t [(t, c)] (t + 1) :=
  ⟨rfl, rfl⟩

theorem stamped_pair (t : ℕ) (c : Cell) : Stamped t [(t, c), (t + 1, c)] (t + 2) :=
  ⟨rfl, rfl⟩

theorem stampPath_stamped (target : Cell) : ∀ (path : List Cell) (t : ℕ),
    Stamped t (stampPath t target path).1 (stampPath t target path).2 := by
  intro path
  induction path with
  | nil => intro t; exact stamped_nil t
  | cons c rest ih =>
    intro t
    by_cases hc : c = target
    · simp only [stampPath, if_pos hc]
      exact stamped_single t c
    · simp only [stampPath, if_neg hc]
      exact (stamped_single t c).append (ih (t + 1))

theorem stampAll_stamped : ∀ (path : List Cell) (t : ℕ),
    Stamped t (stampAll t path).1 (stampAll t path).2 := by
  intro path
  induction path with
  | nil => intro t; exact stamped_nil t
  | cons c rest ih =>
    intro t
    simp only [stampAll]
    exact (stamped_single t c).append (ih (t + 1))

theorem stampAll_cells : ∀ (path : List Cell) (t : ℕ),
    (stampAll t path).1.map Prod.snd = path := by
  intro path
  induction path with
  | nil => intro t; rfl
  | cons c rest ih =>
    intro t
    simp only [stampAll, List.map_cons]
    rw [ih (t + 1)]

theorem dwellGo_stamped (c : Cell) : ∀ (n t : ℕ), Stamped t (dwellGo n t c) (t + n) := by
  intro n
  induction n with
  | zero => intro t; exact ⟨rfl, rfl⟩
  | succ n ih =>
    intro t
    have h := (stamped_single t c).append (ih (t + 1))
    refine ⟨h.1, ?_⟩
    have h2 := h.2
    simp only [dwellGo, List.length_cons, List.singleton_append, List.length_append] at h2 ⊢
    omega

theorem dwell_stamped (t visitT : ℕ) (c : Cell) :
    Stamped t (dwell t visitT c).1 (dwell t visitT c).2 :=
  dwellGo_stamped c (visitT + 1 - t) t

theorem trajLoop_spec (grid? : Option Grid) (depot entry : Cell) (delay : ℕ) :
    ∀ (route : List TrajProduct) (cur : Cell) (t : ℕ) (p : TrajProduct),
      route.getLast? = some p →
      Stamped t (trajLoop grid? depot entry delay route cur t).1
        (t + (trajLoop grid? depot entry delay route cur t).1.length) ∧
      ∃ pre, (trajLoop grid? depot entry delay route cur t).1.map Prod.snd =
        pre ++ (calculate_path p.pickup_location depot grid? ++ ([depot, depot] ++
          (calculate_path depot entry grid? ++ [entry]))) := by
  intro route
  induction route with
  | nil => intro cur t p h; simp at h
  | cons p0 rest ih =>
    intro cur t p hlast
    cases rest with
    | nil =>
      have hp : p = p0 := by simpa using hlast.symm
      subst hp
      simp only [trajLoop]
      set go := stampPath t p.pickup_location (calculate_path cur p.pickup_location grid?)
        with hgo_def
      set dw := dwell go.2 (p.visit_time + delay) p.pickup_location with hdw_def
      set dleg := stampAll dw.2 (calculate_path p.pickup_location depot grid?) with hdleg_def
      set eleg := stampAll (dleg.2 + 2) (calculate_path depot entry grid?) with heleg_def
      have hgo : Stamped t go.1 go.2 := stampPath_stamped _ _ _
      have hdw : Stamped go.2 dw.1 dw.2 := dwell_stamped _ _ _
      have hdleg : Stamped dw.2 dleg.1 dleg.2 := stampAll_stamped _ _
      have heleg : Stamped (dleg.2 + 2) eleg.1 eleg.2 := stampAll_stamped _ _
      have hall :=
        ((((hgo.append hdw).append hdleg).append (stamped_pair dleg.2 depot)).append
          heleg).append (stamped_single eleg.2 entry)
      refine ⟨⟨hall.1, rfl⟩, go.1.map Prod.snd ++ dw.1.map Prod.snd, ?_⟩
      simp only [List.map_append, List.map_cons, List.map_nil, hdleg_def, heleg_def,
        stampAll_cells]
      simp [List.append_assoc]
    | cons q rest' =>
      have hlast' : (q :: rest').getLast? = some p := by
        rw [List.getLast?_cons_cons] at hlast
        exact hlast
      by_cases htrip : q.trip_number ≠ p0.trip_number
      · obtain ⟨ihS0, pre', ihP0⟩ := ih depot
          ((stampAll (dwell (stampPath t p0.pickup_location
              (calculate_path cur p0.pickup_location grid?)).2 (p0.visit_time + delay)
              p0.pickup_location).2 (calculate_path p0.pickup_location depot grid?)).2 + 2)
          p hlast'
        simp only [trajLoop] at ihS0 ihP0 ⊢
        rw [if_pos htrip]
        set go := stampPath t p0.pickup_location (calculate_path cur p0.pickup_location grid?)
          with hgo_def
        set dw := dwell go.2 (p0.visit_time + delay) p0.pickup_location with hdw_def
        set dleg := stampAll dw.2 (calculate_path p0.pickup_location depot grid?)
          with hdleg_def
        have hgo : Stamped t go.1 go.2 := stampPath_stamped _ _ _
        have hdw : Stamped go.2 dw.1 dw.2 := dwell_stamped _ _ _
        have hdleg : Stamped dw.2 dleg.1 dleg.2 := stampAll_stamped _ _
        have hall :=
          (((hgo.append hdw).append hdleg).append (stamped_pair dleg.2 depot)).append ihS0
        refine ⟨⟨hall.1, rfl⟩, go.1.map Prod.snd ++ (dw.1.map Prod.snd ++
          (calculate_path p0.pickup_location depot grid? ++ ([depot, depot] ++ pre'))), ?_⟩
        simp only [List.map_append, List.map_cons, List.map_nil, hdleg_def, stampAll_cells,
          ihP0]
        simp [List.append_assoc]
      · obtain ⟨ihS0, pre', ihP0⟩ := ih p0.pickup_location
          (dwell (stampPath t p0.pickup_location
            (calculate_path cur p0.pickup_location grid?)).2 (p0.visit_time + delay)
            p0.pickup_location).2 p hlast'
        simp only [trajLoop] at ihS0 ihP0 ⊢
        rw [if_neg htrip]
        set go := stampPath t p0.pickup_location (calculate_path cur p0.pickup_location grid?)
          with hgo_def
        set dw := dwell go.2 (p0.visit_time + delay) p0.pickup_location with hdw_def
        have hgo : Stamped t go.1 go.2 := stampPath_stamped _ _ _
        have hdw : Stamped go.2 dw.1 dw.2 := dwell_stamped _ _ _
        have hall := (hgo.append hdw).append ihS0
        refine ⟨⟨hall.1, rfl⟩, go.1.map Prod.snd ++ (dw.1.map Prod.snd ++ pre'), ?_⟩
        simp only [List.map_append, ihP0]
        simp [List.append_assoc]

/-- C9: for an agent with a non-empty product route, the built trajectory's
minute keys form a contiguous range starting at `start_delay`; the stamp at
the largest minute is the entry point, and the trajectory's cells end with
the walk to the assigned depot, the 2-minute depot dwell, the walk back and
the final entry-point stamp. -/
theorem trajectory_dense_and_returns (route : List TrajProduct) (entry : Cell)
    (delay : ℕ) (grid? : Option Grid) (depot : Cell) (p : TrajProduct)
    (hlast : route.getLast? = some p) (l : List (ℕ × Cell))
    (hl : (calculate_agent_trajectory route entry delay grid? (some depot)).1 = l) :
    l.map Prod.fst = List.range' delay l.length ∧
    l ≠ [] ∧
    l.getLast?.map Prod.snd = some entry ∧
    ∃ pre, l.map Prod.snd =
      pre ++ (calculate_path p.pickup_location depot grid? ++ ([depot, depot] ++
        (calculate_path depot entry grid? ++ [entry]))) := by
  have hspec := trajLoop_spec grid? depot entry delay route entry delay p hlast
  rw [show (calculate_agent_trajectory route entry delay grid? (some depot)).1 =
    (trajLoop grid? depot entry delay route entry delay).1 from rfl] at hl
  rw [hl] at hspec
  obtain ⟨⟨hkeys, -⟩, pre, hcells⟩ := hspec
  have hne : l ≠ [] := by
    intro h0
    rw [h0] at hcells
    have := congrArg List.length hcells
    simp at this
    omega
  refine ⟨hkeys, hne, ?_, pre, hcells⟩
  rw [← List.getLast?_map Prod.snd l, hcells]
  rw [show pre ++ (calculate_path p.pickup_location depot grid? ++ ([depot, depot] ++
      (calculate_path depot entry grid? ++ [entry]))) =
    (pre ++ calculate_path p.pickup_location depot grid? ++ [depot, depot] ++
      calculate_path depot entry grid?) ++ [entry] by simp [List.append_assoc]]
  exact List.getLast?_concat _

/-- C9 witness: the structure theorem evaluated on a one-product route with
entry = depot = (1,1) and pickup (1,2). -/
theorem trajectory_dense_and_returns_witness :
    demoTraj.map Prod.fst = List.range' 0 demoTraj.length ∧
    demoTraj ≠ [] ∧
    demoTraj.getLast?.map Prod.snd = some (1, 1) ∧
    ∃ pre, demoTraj.map Prod.snd =
      pre ++ (calculate_path ((1 : Int), (2 : Int)) (1, 1) none ++ ([(1, 1), (1, 1)] ++
        (calculate_path (1, 1) (1, 1) none ++ [(1, 1)]))) :=
  trajectory_dense_and_returns [⟨(1, 2), 0, 1⟩] (1, 1) 0 none (1, 1) ⟨(1, 2), 0, 1⟩
    (by decide) demoTraj (by decide)

/-! ## The collision resolver (C5, C6) -/

/-- C5: if the trajectories built with all start delays zero are already
collision-free, the resolution loop exits after its first iteration and the
result carries the all-zero delays, those same trajectories, and an empty
residual-collision list. -/
theorem check_and_adjust_fixed_point (routes : List (String × List TrajProduct))
    (entry : Cell) (grid? : Option Grid) (max_iterations : ℕ) (h1 : 1 ≤ max_iterations)
    (h0 : iterationCollisions routes (assignDepots (routes.map Prod.fst) []) entry grid?
      (zeroDelays routes) = []) :
    (check_and_adjust_collisions routes entry max_iterations grid?).delays =
      zeroDelays routes ∧
    (check_and_adjust_collisions routes entry max_iterations grid?).trajectories =
      trajsOf (compute_all_trajectories routes (zeroDelays routes)
        (assignDepots (routes.map Prod.fst) []) entry grid?) ∧
    (check_and_adjust_collisions routes entry max_iterations grid?).collisions = [] := by
  obtain ⟨k, rfl⟩ : ∃ k, max_iterations = k + 1 := ⟨max_iterations - 1, by omega⟩
  have hloop : adjustLoop routes (assignDepots (routes.map Prod.fst) []) entry grid? (k + 1)
      (zeroDelays routes) = zeroDelays routes := by
    simp only [adjustLoop]
    rw [if_pos h0]
  refine ⟨?_, ?_, ?_⟩
  · show adjustLoop routes (assignDepots (routes.map Prod.fst) []) entry grid? (k + 1)
      (zeroDelays routes) = zeroDelays routes
    exact hloop
  · show trajsOf (compute_all_trajectories routes
        (adjustLoop routes (assignDepots (routes.map Prod.fst) []) entry grid? (k + 1)
          (zeroDelays routes)) (assignDepots (routes.map Prod.fst) []) entry grid?) = _
    rw [hloop]
  · show detect_collisions (trajsOf (compute_all_trajectories routes
        (adjustLoop routes (assignDepots (routes.map Prod.fst) []) entry grid? (k + 1)
          (zeroDelays routes)) (assignDepots (routes.map Prod.fst) []) entry grid?)) = []
    rw [hloop]
    exact h0

/-- C5 witness: a single-agent plan has no collisions at zero delays, and
the resolver returns immediately with zero delays. -/
theorem check_and_adjust_fixed_point_witness :
    (check_and_adjust_collisions routesSingle (1, 1) 250 none).delays =
      zeroDelays routesSingle ∧
    (check_and_adjust_collisions routesSingle (1, 1) 250 none).trajectories =
      trajsOf (compute_all_trajectories routesSingle (zeroDelays routesSingle)
        (assignDepots (routesSingle.map Prod.fst) []) (1, 1) none) ∧
    (check_and_adjust_collisions routesSingle (1, 1) 250 none).collisions = [] :=
  check_and_adjust_fixed_point routesSingle (1, 1) none 250 (by decide) (by decide)

theorem alookup_bumpDelay (delays : List (String × ℕ)) (v k : String) :
    alookup (bumpDelay delays v) k =
      if k = v then (alookup delays k).map (· + 2) else alookup delays k := by
  induction delays with
  | nil =>
    simp only [bumpDelay, List.map_nil, alookup]
    split <;> rfl
  | cons a t ih =>
    obtain ⟨ak, av⟩ := a
    show alookup ((if ak = v then (ak, av + 2) else (ak, av)) :: bumpDelay t v) k = _
    by_cases hak : ak = v
    · rw [if_pos hak, alookup_cons]
      by_cases hk : ak = k
      · rw [if_pos hk]
        have hkv : k = v := by rw [← hk]; exact hak
        rw [if_pos hkv, alookup_cons, if_pos hk]
        rfl
      · rw [if_neg hk, ih, alookup_cons, if_neg hk]
    · rw [if_neg hak, alookup_cons]
      by_cases hk : ak = k
      · rw [if_pos hk]
        have hkv : ¬ k = v := by rw [← hk]; exact hak
        rw [if_neg hkv, alookup_cons, if_pos hk]
      · rw [if_neg hk, ih, alookup_cons, if_neg hk]

theorem bumpCount_ne_nil (counts : List (String × ℕ)) (k : String) :
    bumpCount counts k ≠ [] := by
  unfold bumpCount
  split
  · next h =>
    intro hmap
    rw [List.map_eq_nil_iff] at hmap
    subst hmap
    simp at h
  · simp

theorem collision_counts_ne_nil (cols : List (String × String × ℕ × Cell))
    (hne : cols ≠ []) : collision_counts cols ≠ [] := by
  have hstep : ∀ (l : List (String × String × ℕ × Cell)) (acc : List (String × ℕ)),
      acc ≠ [] →
      l.foldl (fun counts c => bumpCount (bumpCount counts c.1) c.2.1) acc ≠ [] := by
    intro l
    induction l with
    | nil => intro acc h; exact h
    | cons c rest ih =>
      intro acc _
      exact ih _ (bumpCount_ne_nil _ _)
  cases cols with
  | nil => exact absurd rfl hne
  | cons c rest =>
    unfold collision_counts
    rw [List.foldl_cons]
    exact hstep rest _ (bumpCount_ne_nil _ _)

theorem argmaxAux_spec : ∀ (rest : List (String × ℕ)) (bk : String) (bv : ℕ),
    (argmaxAux bk bv rest = (bk, bv) ∧ ∀ q ∈ rest, q.2 ≤ bv) ∨
    (∃ pre post, rest = pre ++ argmaxAux bk bv rest :: post ∧
      bv < (argmaxAux bk bv rest).2 ∧ (∀ q ∈ pre, q.2 < (argmaxAux bk bv rest).2) ∧
      (∀ q ∈ rest, q.2 ≤ (argmaxAux bk bv rest).2)) := by
  intro rest
  induction rest with
  | nil => intro bk bv; exact Or.inl ⟨rfl, by simp⟩
  | cons a t ih =>
    intro bk bv
    obtain ⟨k, v⟩ := a
    by_cases hv : v > bv
    · simp only [argmaxAux, if_pos hv]
      rcases ih k v with ⟨heq, hall⟩ | ⟨pre, post, hsplit, hlt, hpre, hall⟩
      · refine Or.inr ⟨[], t, ?_, ?_, by simp, ?_⟩
        · rw [heq]; rfl
        · rw [heq]; exact hv
        · intro q hq
          rw [heq]
          rcases List.mem_cons.mp hq with rfl | hq'
          · exact le_refl _
          · exact hall q hq'
      · refine Or.inr ⟨(k, v) :: pre, post, ?_, ?_, ?_, ?_⟩
        · rw [List.cons_append, ← hsplit]
        · exact lt_trans hv hlt
        · intro q hq
          rcases List.mem_cons.mp hq with rfl | hq'
          · exact hlt
          · exact hpre q hq'
        · intro q hq
          rcases List.mem_cons.mp hq with rfl | hq'
          · exact le_of_lt hlt
          · exact hall q hq'
    · simp only [argmaxAux, if_neg hv]
      rcases ih bk bv with ⟨heq, hall⟩ | ⟨pre, post, hsplit, hlt, hpre, hall⟩
      · refine Or.inl ⟨heq, ?_⟩
        intro q hq
        rcases List.mem_cons.mp hq with rfl | hq'
        · omega
        · exact hall q hq'
      · refine Or.inr ⟨(k, v) :: pre, post, ?_, hlt, ?_, ?_⟩
        · rw [List.cons_append, ← hsplit]
        · intro q hq
          rcases List.mem_cons.mp hq with rfl | hq'
          · omega
          · exact hpre q hq'
        · intro q hq
          rcases List.mem_cons.mp hq with rfl | hq'
          · omega
          · exact hall q hq'

theorem argmaxFirst_spec (counts : List (String × ℕ)) (hne : counts ≠ []) :
    ∃ v cnt pre post, argmaxFirst counts = some v ∧ counts = pre ++ (v, cnt) :: post ∧
      (∀ q ∈ pre, q.2 < cnt) ∧ (∀ q ∈ counts, q.2 ≤ cnt) := by
  cases counts with
  | nil => exact absurd rfl hne
  | cons a t =>
    obtain ⟨k, v⟩ := a
    rcases argmaxAux_spec t k v with ⟨heq, hall⟩ | ⟨pre, post, hsplit, hlt, hpre, hall⟩
    · refine ⟨k, v, [], t, ?_, by simp, by simp, ?_⟩
      · simp [argmaxFirst, heq]
      · intro q hq
        rcases List.mem_cons.mp hq with rfl | hq'
        · exact le_refl _
        · exact hall q hq'
    · refine ⟨(argmaxAux k v t).1, (argmaxAux k v t).2, (k, v) :: pre, post, rfl, ?_, ?_, ?_⟩
      · rw [List.cons_append, ← hsplit]
      · intro q hq
        rcases List.mem_cons.mp hq with rfl | hq'
        · exact hlt
        · exact hpre q hq'
      · intro q hq
        rcases List.mem_cons.mp hq with rfl | hq'
        · exact le_of_lt hlt
        · exact hall q hq'

theorem bumpDelay_even (delays : List (String × ℕ)) (v : String)
    (h : ∀ q ∈ delays, 2 ∣ q.2) : ∀ q ∈ bumpDelay delays v, 2 ∣ q.2 := by
  intro q hq
  unfold bumpDelay at hq
  rw [List.mem_map] at hq
  obtain ⟨p, hp, hpq⟩ := hq
  by_cases hpv : p.1 = v
  · rw [if_pos hpv] at hpq
    subst hpq
    exact Dvd.dvd.add (h p hp) (dvd_refl 2)
  · rw [if_neg hpv] at hpq
    subst hpq
    exact h p hp

theorem adjustLoop_even (routes : List (String × List TrajProduct))
    (depots : List (String × Cell)) (entry : Cell) (grid? : Option Grid) :
    ∀ (fuel : ℕ) (delays : List (String × ℕ)), (∀ q ∈ delays, 2 ∣ q.2) →
      ∀ q ∈ adjustLoop routes depots entry grid? fuel delays, 2 ∣ q.2 := by
  intro fuel
  induction fuel with
  | zero => intro delays h; exact h
  | succ fuel ih =>
    intro delays h
    simp only [adjustLoop]
    by_cases hc : iterationCollisions routes depots entry grid? delays = []
    · rw [if_pos hc]; exact h
    · rw [if_neg hc]
      cases hm : argmaxFirst (collision_counts
          (iterationCollisions routes depots entry grid? delays)) with
      | none => exact h
      | some victim => exact ih _ (bumpDelay_even delays victim h)

/-- C6: in any iteration that detects at least one collision, the loop takes
one `bumpDelay` step whose victim is the first agent attaining the maximal
collision count; only the victim's delay changes, by exactly +2 minutes.
Consequently every delay in the returned delay table is an even natural
number. -/
theorem collision_delay_step_and_even :
    (∀ (routes : List (String × List TrajProduct)) (depots : List (String × Cell))
        (entry : Cell) (grid? : Option Grid) (fuel : ℕ) (delays : List (String × ℕ)),
      iterationCollisions routes depots entry grid? delays ≠ [] →
      ∃ victim cnt pre post,
        adjustLoop routes depots entry grid? (fuel + 1) delays =
          adjustLoop routes depots entry grid? fuel (bumpDelay delays victim) ∧
        argmaxFirst (collision_counts (iterationCollisions routes depots entry grid? delays)) =
          some victim ∧
        collision_counts (iterationCollisions routes depots entry grid? delays) =
          pre ++ (victim, cnt) :: post ∧
        (∀ q ∈ pre, q.2 < cnt) ∧
        (∀ q ∈ collision_counts (iterationCollisions routes depots entry grid? delays),
          q.2 ≤ cnt) ∧
        (∀ k, alookup (bumpDelay delays victim) k =
          if k = victim then (alookup delays k).map (· + 2) else alookup delays k)) ∧
    (∀ (routes : List (String × List TrajProduct)) (entry : Cell) (max_iterations : ℕ)
        (grid? : Option Grid) (q : String × ℕ),
      q ∈ (check_and_adjust_collisions routes entry max_iterations grid?).delays →
      2 ∣ q.2) := by
  constructor
  · intro routes depots entry grid? fuel delays hne
    obtain ⟨v, cnt, pre, post, hmax, hsplit, hpre, hall⟩ :=
      argmaxFirst_spec _ (collision_counts_ne_nil _ hne)
    refine ⟨v, cnt, pre, post, ?_, hmax, hsplit, hpre, hall,
      fun k => alookup_bumpDelay delays v k⟩
    simp only [adjustLoop]
    rw [if_neg hne, hmax]
  · intro routes entry max_iterations grid? q hq
    have hzero : ∀ p ∈ zeroDelays routes, 2 ∣ p.2 := by
      intro p hp
      unfold zeroDelays at hp
      rw [List.mem_map] at hp
      obtain ⟨r, -, hrp⟩ := hp
      subst hrp
      exact Dvd.intro 0 rfl
    exact adjustLoop_even routes (assignDepots (routes.map Prod.fst) []) entry grid?
      max_iterations (zeroDelays routes) hzero q hq

/-- C6 witness: on two identical colliding routes the first iteration delays
`Agent_A` (the first agent in iteration order) by 2 minutes, and the
single-agent run returns the even delay 0. -/
theorem collision_delay_step_and_even_witness :
    adjustLoop routesCollide [] (1, 1) none (0 + 1) (zeroDelays routesCollide) =
      adjustLoop routesCollide [] (1, 1) none 0
        (bumpDelay (zeroDelays routesCollide) "Agent_A") ∧
    2 ∣ (("Agent_A", (0 : ℕ)) : String × ℕ).2 := by
  constructor
  · obtain ⟨v, cnt, pre, post, h1, h2, -⟩ :=
      collision_delay_step_and_even.1 routesCollide [] (1, 1) none 0
        (zeroDelays routesCollide) (by decide)
    have hv : v = "Agent_A" := by
      have h3 : argmaxFirst (collision_counts (iterationCollisions routesCollide [] (1, 1)
          none (zeroDelays routesCollide))) = some "Agent_A" := by decide
      rw [h2] at h3
      exact Option.some.inj h3
    rw [hv] at h1
    exact h1
  · exact collision_delay_step_and_even.2 routesSingle (1, 1) 250 none ("Agent_A", 0)
      (by decide)

/-! ## Distance-matrix symmetry (C8): heap order, grid geometry, walks -/

theorem heapLt_iff (a b : HeapEntry) :
    heapLt a b = true ↔ a.1 < b.1 ∨ (a.1 = b.1 ∧ a.2.1 < b.2.1) := by
  simp [heapLt]

theorem heapLt_irrefl (e : HeapEntry) : ¬ heapLt e e = true := by
  rw [heapLt_iff]; omega

theorem heapLt_asymm {a b : HeapEntry} (h : heapLt a b = true) : ¬ heapLt b a = true := by
  rw [heapLt_iff] at *; omega

theorem heapLt_trans_not {x m e : HeapEntry} (h1 : ¬ heapLt x m = true)
    (h2 : ¬ heapLt m e = true) : ¬ heapLt x e = true := by
  rw [heapLt_iff] at *; omega

theorem popMin_min : ∀ {l : List HeapEntry} {e : HeapEntry} {rest : List HeapEntry},
    popMin l = some (e, rest) → ∀ x ∈ l, ¬ heapLt x e = true := by
  intro l
  induction l with
  | nil => intro e rest h; simp [popMin] at h
  | cons a t ih =>
    intro e rest h x hx
    simp only [popMin] at h
    cases hp : popMin t with
    | none =>
      rw [hp] at h
      obtain rfl := popMin_eq_none hp
      simp only [Option.some.injEq, Prod.mk.injEq] at h
      obtain ⟨rfl, rfl⟩ := h
      rcases List.mem_cons.mp hx with rfl | hx'
      · exact heapLt_irrefl _
      · cases hx'
    | some p =>
      obtain ⟨m, r⟩ := p
      rw [hp] at h
      have h' : (if heapLt m a then some (m, a :: r) else some (a, t)) = some (e, rest) := h
      by_cases hlt : heapLt m a
      · rw [if_pos hlt] at h'
        simp only [Option.some.injEq, Prod.mk.injEq] at h'
        obtain ⟨rfl, rfl⟩ := h'
        rcases List.mem_cons.mp hx with rfl | hx'
        · exact heapLt_asymm hlt
        · exact ih hp x hx'
      · rw [if_neg hlt] at h'
        simp only [Option.some.injEq, Prod.mk.injEq] at h'
        obtain ⟨rfl, rfl⟩ := h'
        rcases List.mem_cons.mp hx with rfl | hx'
        · exact heapLt_irrefl _
        · exact heapLt_trans_not (ih hp x hx') hlt

theorem mem_get_neighbors_of {p q : Cell} {grid : Grid}
    (hval : cellVal grid q = some 1) (hadj : manhattan_distance p q = 1) :
    q ∈ get_neighbors p grid := by
  obtain ⟨qx, qy⟩ := q
  obtain ⟨px, py⟩ := p
  have hq : (qx = px ∧ qy = py + 1) ∨ (qx = px ∧ qy = py + (-1)) ∨
      (qx = px + (-1) ∧ qy = py) ∨ (qx = px + 1 ∧ qy = py) := by
    simp only [manhattan_distance] at hadj
    rcases abs_cases (px - qx) with ⟨ha1, hs1⟩ | ⟨ha1, hs1⟩ <;>
      rcases abs_cases (py - qy) with ⟨ha2, hs2⟩ | ⟨ha2, hs2⟩ <;>
      rw [ha1, ha2] at hadj <;> omega
  simp only [get_neighbors, List.mem_filterMap]
  rcases hq with ⟨h1, h2⟩ | ⟨h1, h2⟩ | ⟨h1, h2⟩ | ⟨h1, h2⟩ <;> subst h1 <;> subst h2
  · exact ⟨(0, 1), by simp, by simp [hval]⟩
  · exact ⟨(0, -1), by simp, by simp [hval]⟩
  · exact ⟨(-1, 0), by simp, by simp [hval]⟩
  · exact ⟨(1, 0), by simp, by simp [hval]⟩

theorem manhattan_comm (p q : Cell) : manhattan_distance p q = manhattan_distance q p := by
  simp only [manhattan_distance]
  rw [abs_sub_comm p.1 q.1, abs_sub_comm p.2 q.2]

theorem manhattan_nonneg (p q : Cell) : 0 ≤ manhattan_distance p q :=
  add_nonneg (abs_nonneg _) (abs_nonneg _)

theorem manhattan_triangle (p q r : Cell) :
    manhattan_distance p r ≤ manhattan_distance p q + manhattan_distance q r := by
  simp only [manhattan_distance]
  have h1 : |p.1 - r.1| ≤ |p.1 - q.1| + |q.1 - r.1| := abs_sub_le _ _ _
  have h2 : |p.2 - r.2| ≤ |p.2 - q.2| + |q.2 - r.2| := abs_sub_le _ _ _
  linarith

theorem isWalk_singleton (grid : Grid) (a : Cell) : IsWalk grid [a] a a :=
  ⟨rfl, rfl, List.chain'_singleton _⟩

theorem isWalk_length_pos {grid : Grid} {l : List Cell} {a b : Cell} (h : IsWalk grid l a b) :
    1 ≤ l.length := by
  cases l with
  | nil => exact absurd h.1 (by simp)
  | cons x t => simp

theorem isWalk_single_eq {grid : Grid} {x a b : Cell} (h : IsWalk grid [x] a b) :
    x = a ∧ x = b := by
  obtain ⟨h1, h2, -⟩ := h
  simp only [List.head?_cons, Option.some.injEq] at h1
  constructor
  · exact h1
  · simpa using h2

theorem isWalk_cons_cons {grid : Grid} {x y : Cell} {t : List Cell} {a b : Cell}
    (h : IsWalk grid (x :: y :: t) a b) :
    x = a ∧ IsStep grid x y ∧ IsWalk grid (y :: t) y b := by
  obtain ⟨h1, h2, h3⟩ := h
  rw [List.chain'_cons] at h3
  simp only [List.head?_cons, Option.some.injEq] at h1
  refine ⟨h1, h3.1, rfl, ?_, h3.2⟩
  rw [List.getLast?_cons_cons] at h2
  exact h2

theorem isWalk_extend {grid : Grid} {l : List Cell} {a u v : Cell}
    (h : IsWalk grid l a u) (hv : v ∈ get_neighbors u grid) :
    IsWalk grid (l ++ [v]) a v := by
  obtain ⟨h1, h2, h3⟩ := h
  refine ⟨?_, ?_, ?_⟩
  · cases l with
    | nil => cases h1
    | cons x t => simpa using h1
  · simp
  · rw [List.chain'_append]
    refine ⟨h3, List.chain'_singleton _, ?_⟩
    intro x hx y hy
    rw [h2] at hx
    simp only [Option.mem_def, Option.some.injEq] at hx hy
    simp only [List.head?_cons, Option.some.injEq] at hy
    subst hx
    subst hy
    exact hv

theorem manhattan_le_walk {grid : Grid} :
    ∀ (l : List Cell) (a b : Cell), IsWalk grid l a b →
      manhattan_distance a b ≤ (l.length : ℤ) - 1 := by
  intro l
  induction l with
  | nil => intro a b h; exact absurd h.1 (by simp)
  | cons x t ih =>
    intro a b h
    cases t with
    | nil =>
      obtain ⟨h1, h2⟩ := isWalk_single_eq h
      rw [← h1, ← h2]
      simp [manhattan_distance]
    | cons y u =>
      obtain ⟨rfl, hstep, hwalk⟩ := isWalk_cons_cons h
      have h1 : manhattan_distance x y = 1 := (of_mem_get_neighbors hstep).2
      have h2 := ih y b hwalk
      have h3 := manhattan_triangle x y b
      simp only [List.length_cons] at h2 ⊢
      push_cast at h2 ⊢
      linarith

theorem isWalk_cells_trav {grid : Grid} :
    ∀ (l : List Cell) (a b : Cell), IsWalk grid l a b → cellVal grid a = some 1 →
      ∀ c ∈ l, cellVal grid c = some 1 := by
  intro l
  induction l with
  | nil => intro a b _ _ c hc; cases hc
  | cons x t ih =>
    intro a b h ha c hc
    cases t with
    | nil =>
      obtain ⟨h1, -⟩ := isWalk_single_eq h
      rcases List.mem_singleton.mp hc with rfl
      rw [h1]; exact ha
    | cons y u =>
      obtain ⟨rfl, hstep, hwalk⟩ := isWalk_cons_cons h
      have hy : cellVal grid y = some 1 := (of_mem_get_neighbors hstep).1
      rcases List.mem_cons.mp hc with rfl | hc'
      · exact ha
      · exact ih y b hwalk hy c hc'

theorem chain_flip {grid : Grid} :
    ∀ (l : List Cell), List.Chain' (IsStep grid) l →
      (∀ c ∈ l, cellVal grid c = some 1) →
      List.Chain' (fun u v => IsStep grid v u) l := by
  intro l
  induction l with
  | nil => intro _ _; exact List.chain'_nil
  | cons x t ih =>
    intro hch htrav
    cases t with
    | nil => exact List.chain'_singleton _
    | cons y u =>
      rw [List.chain'_cons] at hch ⊢
      refine ⟨?_, ih hch.2 (fun c hc => htrav c (List.mem_cons_of_mem _ hc))⟩
      have hx : cellVal grid x = some 1 := htrav x (List.mem_cons_self _ _)
      have hadj := (of_mem_get_neighbors hch.1).2
      exact mem_get_neighbors_of hx (by rw [manhattan_comm]; exact hadj)

theorem isWalk_reverse {grid : Grid} {l : List Cell} {a b : Cell}
    (h : IsWalk grid l a b) (ha : cellVal grid a = some 1) :
    IsWalk grid l.reverse b a := by
  have htrav := isWalk_cells_trav l a b h ha
  obtain ⟨h1, h2, h3⟩ := h
  refine ⟨?_, ?_, ?_⟩
  · rw [List.head?_reverse]; exact h2
  · rw [List.getLast?_reverse]; exact h1
  · rw [List.chain'_reverse]
    exact chain_flip l h3 htrav

theorem cellVal_isSome_inBounds {grid : Grid} {p : Cell} {v : ℕ}
    (h : cellVal grid p = some v) : inBoundsB grid p = true := by
  by_contra hb
  unfold cellVal at h
  rw [if_neg hb] at h
  cases h

theorem inBounds_mem_cellBox {grid : Grid} {p : Cell} (h : inBoundsB grid p = true) :
    p ∈ cellBox grid := by
  unfold inBoundsB at h
  simp only [Bool.and_eq_true, decide_eq_true_eq] at h
  simp only [cellBox, Finset.mem_product, Finset.mem_Icc]
  exact ⟨⟨h.1.1.1, h.1.1.2⟩, h.1.2, h.2⟩

theorem cellBox_card (grid : Grid) : (cellBox grid).card = boxSize grid := by
  simp only [cellBox, Finset.card_product, boxSize]
  rw [Int.card_Icc, Int.card_Icc]
  have h1 : ((gridWidth grid : ℤ) + 1 - 1).toNat = gridWidth grid := by omega
  have h2 : ((gridHeight grid : ℤ) + 1 - 1).toNat = gridHeight grid := by omega
  rw [h1, h2]

theorem isWalk_suffix {grid : Grid} {l1 l2 : List Cell} {c a b : Cell}
    (h : IsWalk grid (l1 ++ c :: l2) a b) : IsWalk grid (c :: l2) c b := by
  obtain ⟨h1, h2, h3⟩ := h
  refine ⟨rfl, ?_, h3.suffix ⟨l1, rfl⟩⟩
  rwa [List.getLast?_append_cons] at h2

theorem isWalk_dedup {grid : Grid} :
    ∀ (n : ℕ) (l : List Cell) (a b : Cell), l.length ≤ n → IsWalk grid l a b →
      ∃ l', IsWalk grid l' a b ∧ l'.length ≤ l.length ∧ l'.Nodup ∧ ∀ c ∈ l', c ∈ l := by
  intro n
  induction n with
  | zero =>
    intro l a b hl h
    cases l with
    | nil => exact absurd h.1 (by simp)
    | cons x t => simp at hl
  | succ n ih =>
    intro l a b hl h
    cases l with
    | nil => exact absurd h.1 (by simp)
    | cons x t =>
      by_cases hx : x ∈ t
      · obtain ⟨t1, t2, rfl⟩ := List.append_of_mem hx
        have hax : x = a := by
          have h1 := h.1
          simpa using h1
        have hresh : IsWalk grid ((x :: t1) ++ x :: t2) a b := by
          rw [List.cons_append]
          exact h
        have hsuf : IsWalk grid (x :: t2) x b := isWalk_suffix hresh
        have hlen : (x :: t2).length ≤ n := by
          simp only [List.length_cons, List.length_append] at hl ⊢
          omega
        obtain ⟨l', hw, hle, hnd, hsub⟩ := ih (x :: t2) x b hlen hsuf
        rw [hax] at hw
        refine ⟨l', hw, ?_, hnd, ?_⟩
        · simp only [List.length_cons, List.length_append] at hle ⊢
          omega
        · intro c hc
          have := hsub c hc
          simp only [List.mem_cons, List.mem_append] at this ⊢
          tauto
      · cases t with
        | nil => exact ⟨[x], h, by simp, by simp, by simp⟩
        | cons y u =>
          obtain ⟨rfl, hstep, hwalk⟩ := isWalk_cons_cons h
          obtain ⟨l', hw, hle, hnd, hsub⟩ := ih (y :: u) y b
            (by simp only [List.length_cons] at hl ⊢; omega) hwalk
          have hhead : l'.head? = some y := hw.1
          cases l' with
          | nil => cases hhead
          | cons z w =>
            have hz : z = y := by simpa using hhead
            refine ⟨x :: z :: w, ⟨rfl, ?_, ?_⟩, ?_, ?_, ?_⟩
            · rw [List.getLast?_cons_cons]
              exact hw.2.1
            · rw [List.chain'_cons]
              exact ⟨by rw [hz]; exact hstep, hw.2.2⟩
            · simp only [List.length_cons] at hle ⊢
              omega
            · rw [List.nodup_cons]
              exact ⟨fun hmem => hx (hsub x hmem), hnd⟩
            · intro c hc
              rcases List.mem_cons.mp hc with rfl | hc'
              · exact List.mem_cons_self _ _
              · exact List.mem_cons_of_mem _ (hsub c hc')

theorem nodup_walk_length_le {grid : Grid} {l : List Cell}
    (hnd : l.Nodup) (hmem : ∀ c ∈ l, c ∈ cellBox grid) :
    l.length ≤ boxSize grid := by
  calc l.length = l.toFinset.card := (List.toFinset_card_of_nodup hnd).symm
  _ ≤ (cellBox grid).card := Finset.card_le_card fun c hc => hmem c (List.mem_toFinset.mp hc)
  _ = boxSize grid := cellBox_card grid

theorem walkDist_exists {grid : Grid} {a b : Cell} (h : ∃ l, IsWalk grid l a b) :
    ∃ n, WalkDist grid a b n := by
  obtain ⟨l, hl⟩ := h
  have hne : {m : ℕ | ∃ w, IsWalk grid w a b ∧ w.length = m + 1}.Nonempty :=
    ⟨l.length - 1, l, hl, by have := isWalk_length_pos hl; omega⟩
  refine ⟨sInf {m : ℕ | ∃ w, IsWalk grid w a b ∧ w.length = m + 1}, Nat.sInf_mem hne, ?_⟩
  intro l' hl'
  have hmem : l'.length - 1 ∈ {m : ℕ | ∃ w, IsWalk grid w a b ∧ w.length = m + 1} :=
    ⟨l', hl', by have := isWalk_length_pos hl'; omega⟩
  have h1 := Nat.sInf_le hmem
  have h2 := isWalk_length_pos hl'
  omega

theorem walkDist_unique {grid : Grid} {a b : Cell} {m n : ℕ}
    (hm : WalkDist grid a b m) (hn : WalkDist grid a b n) : m = n := by
  obtain ⟨⟨l1, h1, hl1⟩, hmin1⟩ := hm
  obtain ⟨⟨l2, h2, hl2⟩, hmin2⟩ := hn
  have ha := hmin1 l2 h2
  have hb := hmin2 l1 h1
  omega

theorem walkDist_le_box {grid : Grid} {a b : Cell} {n : ℕ}
    (ha : cellVal grid a = some 1) (h : WalkDist grid a b n) :
    n + 1 ≤ boxSize grid := by
  obtain ⟨⟨l, hl, hlen⟩, hmin⟩ := h
  obtain ⟨l', hw, hle, hnd, hsub⟩ := isWalk_dedup l.length l a b le_rfl hl
  have h1 := hmin l' hw
  have h2 : l'.length ≤ boxSize grid := by
    apply nodup_walk_length_le hnd
    intro c hc
    have hctrav := isWalk_cells_trav l a b hl ha c (hsub c hc)
    exact inBounds_mem_cellBox (cellVal_isSome_inBounds hctrav)
  omega

theorem vinv_realizable {grid : Grid} {start : Cell} {st : AState}
    (hinv : VInv grid start st) :
    ∀ (g : ℕ) (c : Cell), alookup st.gScore c = some g →
      ∃ l, IsWalk grid l start c ∧ l.length ≤ g + 1 := by
  intro g
  induction g using Nat.strong_induction_on with
  | _ g ih =>
    intro c hg
    by_cases hcs : c = start
    · subst hcs
      exact ⟨[c], isWalk_singleton grid c, by simp⟩
    · obtain ⟨c', hc'⟩ := hinv.gCf c g hg hcs
      obtain ⟨hmem, gn, gc, hg1, hg2, hlt⟩ := hinv.cfChain c c' hc'
      have hgn : gn = g := by rw [hg] at hg1; cases hg1; rfl
      subst hgn
      obtain ⟨l, hw, hlen⟩ := ih gc hlt c' hg2
      refine ⟨l ++ [c], isWalk_extend hw hmem, ?_⟩
      simp only [List.length_append, List.length_cons, List.length_nil]
      omega

theorem reconstruct_length_le {grid : Grid} {cameFrom : List (Cell × Cell)}
    {gScore : List (Cell × Nat)}
    (hcf : ∀ n c, alookup cameFrom n = some c →
      n ∈ get_neighbors c grid ∧
        ∃ gn gc, alookup gScore n = some gn ∧ alookup gScore c = some gc ∧ gc < gn) :
    ∀ (fuel : Nat) (node : Cell) (gn : Nat),
      alookup gScore node = some gn →
      (reconstruct fuel cameFrom node).length ≤ gn + 1 := by
  intro fuel
  induction fuel with
  | zero => intro node gn _; simp [reconstruct]
  | succ fuel ih =>
    intro node gn hg
    cases hcfn : alookup cameFrom node with
    | none => simp [reconstruct, hcfn]
    | some c =>
      obtain ⟨-, gn', gc, hg', hgc, hlt⟩ := hcf _ _ hcfn
      have hgg : gn' = gn := by rw [hg] at hg'; cases hg'; rfl
      subst hgg
      have := ih c gc hgc
      simp only [reconstruct, hcfn, List.length_cons]
      omega

theorem frontier_aux {grid : Grid} {start endp : Cell} {st : AState}
    (hinv : OInv grid start endp st) :
    ∀ (l : List Cell) (u z : Cell) (K : ℤ), IsWalk grid l u z → z ∉ st.closed →
      u ∈ st.closed → (∀ gu, alookup st.gScore u = some gu → (gu : ℤ) ≤ K) →
      ∃ y gy, y ∉ st.closed ∧ alookup st.gScore y = some gy ∧
        (gy : ℤ) + manhattan_distance y endp ≤
          K + ((l.length : ℤ) - 1) + manhattan_distance z endp := by
  intro l
  induction l with
  | nil => intro u z K h; exact absurd h.1 (by simp)
  | cons x t ih =>
    intro u z K h hz hu hK
    cases t with
    | nil =>
      obtain ⟨h1, h2⟩ := isWalk_single_eq h
      rw [h1] at h2
      exact absurd (h2 ▸ hu) hz
    | cons y0 t' =>
      obtain ⟨rfl, hstep, hwalk⟩ := isWalk_cons_cons h
      obtain ⟨gu, gv, hgu, hgv, hle⟩ := hinv.closedExp x hu y0 hstep
      have hguK : (gu : ℤ) ≤ K := hK gu hgu
      by_cases hy0 : y0 ∈ st.closed
      · have hKnext : ∀ gu', alookup st.gScore y0 = some gu' → (gu' : ℤ) ≤ K + 1 := by
          intro gu' hgu'
          rw [hgv] at hgu'
          cases hgu'
          omega
        obtain ⟨y, gy, hy1, hy2, hy3⟩ := ih y0 z (K + 1) hwalk hz hy0 hKnext
        refine ⟨y, gy, hy1, hy2, ?_⟩
        simp only [List.length_cons] at hy3 ⊢
        push_cast at hy3 ⊢
        linarith
      · refine ⟨y0, gv, hy0, hgv, ?_⟩
        have hleZ : (gv : ℤ) ≤ (gu : ℤ) + 1 := by exact_mod_cast hle
        have hman : manhattan_distance y0 z ≤ ((y0 :: t').length : ℤ) - 1 :=
          manhattan_le_walk _ y0 z hwalk
        have htri := manhattan_triangle y0 z endp
        simp only [List.length_cons] at hman ⊢
        push_cast at hman ⊢
        linarith

theorem frontier {grid : Grid} {start endp : Cell} {st : AState}
    (hinv : OInv grid start endp st) (l : List Cell) (z : Cell)
    (hw : IsWalk grid l start z) (hz : z ∉ st.closed) :
    ∃ y gy, y ∉ st.closed ∧ alookup st.gScore y = some gy ∧
      (gy : ℤ) + manhattan_distance y endp ≤
        ((l.length : ℤ) - 1) + manhattan_distance z endp := by
  by_cases hs : start ∈ st.closed
  · have hK : ∀ gu, alookup st.gScore start = some gu → (gu : ℤ) ≤ 0 := by
      intro gu hgu
      rw [hinv.base.gStart] at hgu
      cases hgu
      simp
    obtain ⟨y, gy, h1, h2, h3⟩ := frontier_aux hinv l start z 0 hw hz hs hK
    exact ⟨y, gy, h1, h2, by linarith [h3]⟩
  · refine ⟨start, 0, hs, hinv.base.gStart, ?_⟩
    have hman := manhattan_le_walk l start z hw
    have htri := manhattan_triangle start z endp
    push_cast
    linarith

theorem pop_fresh_opt {grid : Grid} {start endp : Cell} {st : AState}
    {f : ℤ} {cnt : ℕ} {cur : Cell} {rest : List HeapEntry}
    (hinv : OInv grid start endp st)
    (hpop : popMin st.openSet = some ((f, cnt, cur), rest))
    (hfresh : cur ∉ st.closed) {gcur : ℕ}
    (hgcur : alookup st.gScore cur = some gcur) :
    WalkDist grid start cur gcur := by
  have hub : ∀ l, IsWalk grid l start cur → (gcur : ℤ) ≤ (l.length : ℤ) - 1 := by
    intro l hl
    obtain ⟨y, gy, hy1, hy2, hy3⟩ := frontier hinv l cur hl hfresh
    obtain ⟨e, hemem, hepos, hef⟩ := hinv.openEntry y gy hy2 hy1
    have hmin := popMin_min hpop e hemem
    rw [heapLt_iff] at hmin
    have hmin' : ¬ (e.1 < f ∨ (e.1 = f ∧ e.2.1 < cnt)) := hmin
    have hfe : f ≤ e.1 := by omega
    by_cases hcs : cur = start
    · subst hcs
      rw [hinv.base.gStart] at hgcur
      cases hgcur
      have := isWalk_length_pos hl
      push_cast
      omega
    · have hpopmem : ((f, cnt, cur) : HeapEntry) ∈ st.openSet :=
        (popMin_perm hpop).mem_iff.mpr (List.mem_cons_self _ _)
      obtain ⟨g', hg', hlow⟩ := hinv.entryLower _ hpopmem hcs
      have hgg : g' = gcur := by rw [hgcur] at hg'; cases hg'; rfl
      subst hgg
      have hmn := manhattan_nonneg cur endp
      linarith
  obtain ⟨l0, hw0, hlen0⟩ := vinv_realizable hinv.base gcur cur hgcur
  have h1 := hub l0 hw0
  have hpos := isWalk_length_pos hw0
  have hexact : l0.length = gcur + 1 := by omega
  refine ⟨⟨l0, hw0, hexact⟩, ?_⟩
  intro l hl
  have h2 := hub l hl
  have h3 := isWalk_length_pos hl
  omega

theorem walkDist_extend {grid : Grid} {start cur nb : Cell} {gcur gnb : ℕ}
    (hcur : WalkDist grid start cur gcur) (hnb : WalkDist grid start nb gnb)
    (hstep : nb ∈ get_neighbors cur grid) : gnb ≤ gcur + 1 := by
  obtain ⟨⟨l, hl, hlen⟩, -⟩ := hcur
  obtain ⟨-, hmin⟩ := hnb
  have hw := isWalk_extend hl hstep
  have h1 := hmin _ hw
  simp only [List.length_append, List.length_cons, List.length_nil] at h1
  omega

theorem oinv_init (grid : Grid) (start endp : Cell) :
    OInv grid start endp (astarInit start) := by
  refine ⟨vinv_init grid start, ?_, ?_, ?_, ?_, ?_, ?_, ?_⟩
  · simp [astarInit]
  · intro c hc; simp [astarInit] at hc
  · intro c hc; simp [astarInit] at hc
  · intro u hu; simp [astarInit] at hu
  · intro c g hg hc
    simp only [astarInit, alookup] at hg
    by_cases hcs : start = c
    · rw [if_pos hcs] at hg
      cases hg
      subst hcs
      refine ⟨(0, 0, start), by simp [astarInit], rfl, ?_⟩
      show (0 : ℤ) ≤ ((0 : ℕ) : ℤ) + manhattan_distance start endp
      simpa using manhattan_nonneg start endp
    · rw [if_neg hcs] at hg; cases hg
  · intro e he hne
    simp only [astarInit, List.mem_singleton] at he
    subst he
    exact absurd rfl hne
  · intro c g hg
    simp only [astarInit, alookup] at hg
    by_cases hcs : start = c
    · rw [if_pos hcs] at hg; cases hg; exact Nat.zero_le _
    · rw [if_neg hcs] at hg; cases hg

theorem expInv_expandOne {grid : Grid} {start endp cur : Cell} {gcur : ℕ} {s : AState}
    {nb : Cell} (hinv : ExpInv grid start endp cur gcur s)
    (hnb : nb ∈ get_neighbors cur grid) :
    ExpInv grid start endp cur gcur (expandOne endp cur s nb) ∧
    (∃ gv, alookup (expandOne endp cur s nb).gScore nb = some gv ∧ gv ≤ gcur + 1) ∧
    (∀ v, v ≠ nb → alookup (expandOne endp cur s nb).gScore v = alookup s.gScore v) := by
  have hnbcur : nb ≠ cur := get_neighbors_ne hnb
  have htg : tentativeG s cur = gcur + 1 := by
    unfold tentativeG; rw [hinv.curG]; rfl
  by_cases hcl : nb ∈ s.closed
  · have heq : expandOne endp cur s nb = s := by unfold expandOne; rw [if_pos hcl]
    rw [heq]
    refine ⟨hinv, ?_, fun v _ => rfl⟩
    obtain ⟨gnb, hgnb⟩ := hinv.closedSub nb hcl
    have hopt := hinv.closedOpt nb hcl gnb hgnb
    exact ⟨gnb, hgnb, walkDist_extend hinv.curOpt hopt hnb⟩
  · by_cases him : improvesB s cur nb
    swap
    · have heq : expandOne endp cur s nb = s := by
        unfold expandOne; rw [if_neg hcl, if_neg him]
      rw [heq]
      refine ⟨hinv, ?_, fun v _ => rfl⟩
      unfold improvesB at him
      cases hg0 : alookup s.gScore nb with
      | none => rw [hg0] at him; simp at him
      | some g0 =>
        rw [hg0] at him
        simp only [decide_eq_true_eq] at him
        exact ⟨g0, rfl, by omega⟩
    · have hg0ex : ∀ g0, alookup s.gScore nb = some g0 → tentativeG s cur < g0 := by
        intro g0 hg0
        unfold improvesB at him
        rw [hg0] at him
        simpa using him
      have heq : expandOne endp cur s nb =
          { openSet := ((tentativeG s cur : Int) + manhattan_distance nb endp,
              s.counter + 1, nb) :: s.openSet
            counter := s.counter + 1
            cameFrom := (nb, cur) :: s.cameFrom
            gScore := (nb, tentativeG s cur) :: s.gScore
            closed := s.closed } := by
        unfold expandOne; rw [if_neg hcl, if_pos him]
      have hbase : VInv grid start (expandOne endp cur s nb) :=
        vinv_expandOne hinv.base hnb ⟨gcur, hinv.curG⟩
      rw [heq] at hbase ⊢
      refine ⟨⟨hbase, hinv.endNC, hinv.curClosed, ?_, hinv.curOpt, hinv.curBox,
          ?_, ?_, ?_, ?_, ?_, ?_⟩, ?_, ?_⟩
      · show alookup ((nb, tentativeG s cur) :: s.gScore) cur = some gcur
        rw [alookup_cons, if_neg hnbcur]
        exact hinv.curG
      · intro c hc
        have hne : nb ≠ c := fun h => hcl (h ▸ hc)
        show ∃ g, alookup ((nb, tentativeG s cur) :: s.gScore) c = some g
        rw [alookup_cons, if_neg hne]
        exact hinv.closedSub c hc
      · intro c hc g hg
        have hne : nb ≠ c := fun h => hcl (h ▸ hc)
        rw [show alookup ((nb, tentativeG s cur) :: s.gScore) c = alookup s.gScore c by
          rw [alookup_cons, if_neg hne]] at hg
        exact hinv.closedOpt c hc g hg
      · intro u hu hune v hv
        obtain ⟨gu, gv, h1, h2, h3⟩ := hinv.closedExpOld u hu hune v hv
        have hneu : nb ≠ u := fun h => hcl (h ▸ hu)
        by_cases hvnb : nb = v
        · refine ⟨gu, tentativeG s cur, ?_, ?_, ?_⟩
          · rw [alookup_cons, if_neg hneu]; exact h1
          · rw [alookup_cons, if_pos hvnb]
          · subst hvnb
            have := hg0ex gv h2
            omega
        · refine ⟨gu, gv, ?_, ?_, h3⟩
          · rw [alookup_cons, if_neg hneu]; exact h1
          · rw [alookup_cons, if_neg hvnb]; exact h2
      · intro c g hg hc
        rw [show ((⟨_, _, _, (nb, tentativeG s cur) :: s.gScore, s.closed⟩ : AState)).gScore
            = (nb, tentativeG s cur) :: s.gScore from rfl] at hg
        rw [alookup_cons] at hg
        by_cases hcnb : nb = c
        · rw [if_pos hcnb] at hg
          cases hg
          refine ⟨((tentativeG s cur : Int) + manhattan_distance nb endp,
              s.counter + 1, nb), List.mem_cons_self _ _, hcnb, ?_⟩
          subst hcnb
          exact le_refl _
        · rw [if_neg hcnb] at hg
          obtain ⟨e, he, hpos, hef⟩ := hinv.openEntry c g hg hc
          exact ⟨e, List.mem_cons_of_mem _ he, hpos, hef⟩
      · intro e he hne
        rcases List.mem_cons.mp he with rfl | he'
        · refine ⟨tentativeG s cur, ?_, ?_⟩
          · show alookup ((nb, tentativeG s cur) :: s.gScore) nb = some _
            rw [alookup_cons, if_pos rfl]
          · exact le_refl _
        · obtain ⟨g, hg, hle⟩ := hinv.entryLower e he' hne
          by_cases hpnb : nb = e.2.2
          · obtain ⟨g0, hg0⟩ : ∃ g0, alookup s.gScore nb = some g0 := ⟨g, hpnb ▸ hg⟩
            have hlt := hg0ex g0 hg0
            have hgg : g = g0 := by rw [hpnb] at hg0; rw [hg] at hg0; cases hg0; rfl
            refine ⟨tentativeG s cur, ?_, ?_⟩
            · rw [alookup_cons, if_pos hpnb]
            · have h1 : ((tentativeG s cur : ℕ) : ℤ) ≤ (g : ℤ) := by
                subst hgg; exact_mod_cast le_of_lt hlt
              linarith
          · refine ⟨g, ?_, hle⟩
            rw [alookup_cons, if_neg hpnb]
            exact hg
      · intro c g hg
        rw [show ((⟨_, _, _, (nb, tentativeG s cur) :: s.gScore, s.closed⟩ : AState)).gScore
            = (nb, tentativeG s cur) :: s.gScore from rfl] at hg
        rw [alookup_cons] at hg
        by_cases hcnb : nb = c
        · rw [if_pos hcnb] at hg
          cases hg
          have := hinv.curBox
          omega
        · rw [if_neg hcnb] at hg
          exact hinv.gLe c g hg
      · refine ⟨tentativeG s cur, ?_, by omega⟩
        show alookup ((nb, tentativeG s cur) :: s.gScore) nb = some _
        rw [alookup_cons, if_pos rfl]
      · intro v hv
        show alookup ((nb, tentativeG s cur) :: s.gScore) v = alookup s.gScore v
        rw [alookup_cons, if_neg (fun h => hv h.symm)]

theorem expInv_foldl {grid : Grid} {start endp cur : Cell} {gcur : ℕ} :
    ∀ (todo : List Cell) (s : AState),
      (∀ nb ∈ todo, nb ∈ get_neighbors cur grid) →
      ExpInv grid start endp cur gcur s →
      (∀ v ∈ get_neighbors cur grid, v ∉ todo →
        ∃ gv, alookup s.gScore v = some gv ∧ gv ≤ gcur + 1) →
      ExpInv grid start endp cur gcur (todo.foldl (expandOne endp cur) s) ∧
      (∀ v ∈ get_neighbors cur grid, ∃ gv,
        alookup (todo.foldl (expandOne endp cur) s).gScore v = some gv ∧ gv ≤ gcur + 1) := by
  intro todo
  induction todo with
  | nil =>
    intro s _ hinv hdone
    exact ⟨hinv, fun v hv => hdone v hv (by simp)⟩
  | cons nb t ih =>
    intro s hsub hinv hdone
    simp only [List.foldl_cons]
    have hnb : nb ∈ get_neighbors cur grid := hsub nb (List.mem_cons_self _ _)
    obtain ⟨hinv', hnbg, hoff⟩ := expInv_expandOne hinv hnb
    apply ih _ (fun x hx => hsub x (List.mem_cons_of_mem _ hx)) hinv'
    intro v hv hnv
    by_cases hvnb : v = nb
    · subst hvnb
      exact hnbg
    · obtain ⟨gv, hgv, hle⟩ := hdone v hv (by
        simp only [List.mem_cons, not_or]
        exact ⟨hvnb, hnv⟩)
      exact ⟨gv, by rw [hoff v hvnb]; exact hgv, hle⟩

theorem oinv_step {grid : Grid} {start endp : Cell} {st : AState}
    {f : ℤ} {cnt : ℕ} {cur : Cell} {rest : List HeapEntry}
    (hinv : OInv grid start endp st)
    (hpop : popMin st.openSet = some ((f, cnt, cur), rest))
    (hce : cur ≠ endp) (hstt : cellVal grid start = some 1) :
    OInv grid start endp ((get_neighbors cur grid).foldl (expandOne endp cur)
      { st with openSet := rest, closed := cur :: st.closed }) := by
  have hpopmem : ((f, cnt, cur) : HeapEntry) ∈ st.openSet :=
    (popMin_perm hpop).mem_iff.mpr (List.mem_cons_self _ _)
  obtain ⟨gcur, hgcur⟩ := hinv.base.openG _ hpopmem
  have hcuropt : WalkDist grid start cur gcur := by
    by_cases hfresh : cur ∈ st.closed
    · exact hinv.closedOpt cur hfresh gcur hgcur
    · exact pop_fresh_opt hinv hpop hfresh hgcur
  have hcurbox : gcur + 1 ≤ boxSize grid := walkDist_le_box hstt hcuropt
  have hrest : ∀ e ∈ rest, e ∈ st.openSet := fun e he =>
    (popMin_perm hpop).mem_iff.mpr (List.mem_cons_of_mem _ he)
  have hinv1 : ExpInv grid start endp cur gcur
      { st with openSet := rest, closed := cur :: st.closed } := by
    refine ⟨⟨hinv.base.gStart, hinv.base.cfStart, hinv.base.cfChain, hinv.base.gCf,
        hinv.base.gBound, fun e he => hinv.base.openG e (hrest e he)⟩,
      ?_, List.mem_cons_self _ _, hgcur, hcuropt, hcurbox, ?_, ?_, ?_, ?_, ?_, hinv.gLe⟩
    · intro hmem
      rcases List.mem_cons.mp hmem with h | h
      · exact hce h.symm
      · exact hinv.endNC h
    · intro c hc
      rcases List.mem_cons.mp hc with rfl | h
      · exact ⟨gcur, hgcur⟩
      · exact hinv.closedSub c h
    · intro c hc g hg
      rcases List.mem_cons.mp hc with rfl | h
      · have : g = gcur := by rw [hgcur] at hg; cases hg; rfl
        subst this
        exact hcuropt
      · exact hinv.closedOpt c h g hg
    · intro u hu hune v hv
      rcases List.mem_cons.mp hu with rfl | h
      · exact absurd rfl hune
      · exact hinv.closedExp u h v hv
    · intro c g hg hc
      have hcc : c ∉ st.closed := fun h => hc (List.mem_cons_of_mem _ h)
      have hccur : c ≠ cur := fun h => hc (h ▸ List.mem_cons_self _ _)
      obtain ⟨e, he, hpos, hef⟩ := hinv.openEntry c g hg hcc
      refine ⟨e, ?_, hpos, hef⟩
      have hne : e ≠ (f, cnt, cur) := by
        intro h
        rw [h] at hpos
        exact hccur hpos.symm
      have := (popMin_perm hpop).mem_iff.mp he
      rcases List.mem_cons.mp this with h | h
      · exact absurd h hne
      · exact h
    · intro e he hne
      exact hinv.entryLower e (hrest e he) hne
  obtain ⟨hfinal, hdone⟩ := expInv_foldl (get_neighbors cur grid)
    { st with openSet := rest, closed := cur :: st.closed }
    (fun nb h => h) hinv1 (fun v hv hnv => absurd hv hnv)
  refine ⟨hfinal.base, hfinal.endNC, hfinal.closedSub, hfinal.closedOpt, ?_,
    hfinal.openEntry, hfinal.entryLower, hfinal.gLe⟩
  intro u hu v hv
  by_cases hucur : u = cur
  · subst hucur
    obtain ⟨gv, hgv, hle⟩ := hdone v hv
    exact ⟨gcur, gv, hfinal.curG, hgv, hle⟩
  · exact hfinal.closedExpOld u hu hucur v hv

theorem potSum_update {grid : Grid} (gs : List (Cell × ℕ)) (nb : Cell) (T : ℕ)
    (hmem : nb ∈ cellBox grid)
    (hlt : T < (alookup gs nb).getD (boxSize grid + 1)) :
    (cellBox grid).sum (fun c => (alookup ((nb, T) :: gs) c).getD (boxSize grid + 1)) + 1 ≤
      (cellBox grid).sum (fun c => (alookup gs c).getD (boxSize grid + 1)) := by
  rw [← Finset.sum_erase_add _ _ hmem, ← Finset.sum_erase_add _ _ hmem]
  have hcong : ∀ c ∈ (cellBox grid).erase nb,
      (alookup ((nb, T) :: gs) c).getD (boxSize grid + 1)
        = (alookup gs c).getD (boxSize grid + 1) := by
    intro c hc
    have hne : nb ≠ c := fun h => (Finset.mem_erase.mp hc).1 h.symm
    rw [alookup_cons, if_neg hne]
  rw [Finset.sum_congr rfl hcong]
  have hval : (alookup ((nb, T) :: gs) nb).getD (boxSize grid + 1) = T := by
    rw [alookup_cons, if_pos rfl]
    rfl
  rw [hval]
  omega

theorem expandOne_phi {grid : Grid} (endp : Cell) {cur : Cell} {s : AState} {nb : Cell}
    {gcur : ℕ}
    (hcur : alookup s.gScore cur = some gcur) (hbox : gcur + 1 ≤ boxSize grid)
    (hnb : nb ∈ get_neighbors cur grid) :
    phi grid (expandOne endp cur s nb) ≤ phi grid s := by
  have htg : tentativeG s cur = gcur + 1 := by unfold tentativeG; rw [hcur]; rfl
  unfold expandOne
  by_cases hcl : nb ∈ s.closed
  · rw [if_pos hcl]
  · rw [if_neg hcl]
    by_cases him : improvesB s cur nb
    swap
    · rw [if_neg him]
    · rw [if_pos him]
      have him' : tentativeG s cur < (alookup s.gScore nb).getD (boxSize grid + 1) := by
        unfold improvesB at him
        cases hg0 : alookup s.gScore nb with
        | none =>
          show tentativeG s cur < boxSize grid + 1
          omega
        | some g0 =>
          rw [hg0] at him
          simp only [decide_eq_true_eq] at him
          simpa using him
      have hmem : nb ∈ cellBox grid :=
        inBounds_mem_cellBox (cellVal_isSome_inBounds (of_mem_get_neighbors hnb).1)
      have hkey := potSum_update s.gScore nb (tentativeG s cur) hmem him'
      show 2 * (cellBox grid).sum
          (fun c => (alookup ((nb, tentativeG s cur) :: s.gScore) c).getD (boxSize grid + 1)) +
          (s.openSet.length + 1) ≤
        2 * (cellBox grid).sum (fun c => (alookup s.gScore c).getD (boxSize grid + 1)) +
          s.openSet.length
      omega

theorem foldl_phi {grid : Grid} (endp : Cell) {cur : Cell} {gcur : ℕ} :
    ∀ (todo : List Cell) (s : AState),
      (∀ nb ∈ todo, nb ∈ get_neighbors cur grid) →
      alookup s.gScore cur = some gcur → gcur + 1 ≤ boxSize grid →
      phi grid (todo.foldl (expandOne endp cur) s) ≤ phi grid s := by
  intro todo
  induction todo with
  | nil => intro s _ _ _; exact le_refl _
  | cons nb t ih =>
    intro s hsub hcur hbox
    simp only [List.foldl_cons]
    have hnb := hsub nb (List.mem_cons_self _ _)
    have h1 := expandOne_phi endp hcur hbox hnb
    have h2 := ih (expandOne endp cur s nb) (fun x hx => hsub x (List.mem_cons_of_mem _ hx))
      (by rw [expandOne_gScore_cur (get_neighbors_ne hnb)]; exact hcur) hbox
    omega

theorem phi_pop (grid : Grid) {st : AState} {e : HeapEntry} {rest : List HeapEntry}
    (hpop : popMin st.openSet = some (e, rest)) (cur : Cell) :
    phi grid { st with openSet := rest, closed := cur :: st.closed } + 1 = phi grid st := by
  have hlen : st.openSet.length = rest.length + 1 := by
    have h := (popMin_perm hpop).length_eq
    simpa using h
  show 2 * (cellBox grid).sum (fun c => (alookup st.gScore c).getD (boxSize grid + 1)) +
      rest.length + 1 =
    2 * (cellBox grid).sum (fun c => (alookup st.gScore c).getD (boxSize grid + 1)) +
      st.openSet.length
  omega

theorem phi_init_lt (grid : Grid) (start : Cell) :
    phi grid (astarInit start) < astarFuel grid := by
  have hsum : (cellBox grid).sum (potOf grid (astarInit start)) ≤
      (boxSize grid + 1) * boxSize grid := by
    calc (cellBox grid).sum (potOf grid (astarInit start))
        ≤ (cellBox grid).sum (fun _ => boxSize grid + 1) := by
          apply Finset.sum_le_sum
          intro c _
          by_cases hc0 : start = c
          · simp [potOf, astarInit, alookup, hc0]
          · simp [potOf, astarInit, alookup, hc0]
      _ = (boxSize grid + 1) * boxSize grid := by
          rw [Finset.sum_const, smul_eq_mul, cellBox_card, Nat.mul_comm]
  have hfuel : astarFuel grid =
      2 * (boxSize grid + 1) * (boxSize grid + 1) + 2 := rfl
  have hphi : phi grid (astarInit start) =
      2 * (cellBox grid).sum (potOf grid (astarInit start)) + 1 := rfl
  have hexp : (boxSize grid + 1) * (boxSize grid + 1) =
      (boxSize grid + 1) * boxSize grid + (boxSize grid + 1) := by ring
  rw [hphi, hfuel]
  have h2 : 2 * ((boxSize grid + 1) * (boxSize grid + 1)) =
      2 * ((boxSize grid + 1) * boxSize grid) + 2 * (boxSize grid + 1) := by rw [hexp]; ring
  have h3 : 2 * (boxSize grid + 1) * (boxSize grid + 1) =
      2 * ((boxSize grid + 1) * (boxSize grid + 1)) := by ring
  omega

theorem astarLoop_opt {grid : Grid} {start endp : Cell} {path : List Cell}
    (hstt : cellVal grid start = some 1) :
    ∀ (fuel : ℕ) (st : AState), OInv grid start endp st →
      astarLoop grid endp fuel st = some path →
      IsWalk grid path start endp ∧
        ∀ l, IsWalk grid l start endp → path.length ≤ l.length := by
  intro fuel
  induction fuel with
  | zero => intro st _ h; simp [astarLoop] at h
  | succ fuel ih =>
    intro st hinv h
    rw [astarLoop] at h
    cases hp : popMin st.openSet with
    | none => rw [hp] at h; cases h
    | some pr =>
      obtain ⟨⟨f, cnt, cur⟩, rest⟩ := pr
      rw [hp] at h
      replace h :
          (if cur = endp then
            some (reconstruct st.gScore.length st.cameFrom endp).reverse
          else
            astarLoop grid endp fuel
              ((get_neighbors cur grid).foldl (expandOne endp cur)
                { st with openSet := rest, closed := cur :: st.closed })) = some path := h
      by_cases hce : cur = endp
      · rw [if_pos hce] at h
        have hfresh : cur ∉ st.closed := by rw [hce]; exact hinv.endNC
        have hpopmem : ((f, cnt, cur) : HeapEntry) ∈ st.openSet :=
          (popMin_perm hp).mem_iff.mpr (List.mem_cons_self _ _)
        obtain ⟨gend, hgend⟩ := hinv.base.openG _ hpopmem
        have hopt : WalkDist grid start cur gend := pop_fresh_opt hinv hp hfresh hgend
        rw [hce] at hgend hopt
        have hbound : gend < st.gScore.length := hinv.base.gBound _ (alookup_mem hgend)
        obtain ⟨h1, h2, h3⟩ := reconstruct_spec hinv.base.cfChain hinv.base.gCf
          st.gScore.length endp gend hgend hbound
        have hlen := reconstruct_length_le hinv.base.cfChain st.gScore.length endp gend hgend
        cases h
        refine ⟨⟨?_, ?_, ?_⟩, ?_⟩
        · rw [List.head?_reverse]; exact h2
        · rw [List.getLast?_reverse]; exact h1
        · rw [List.chain'_reverse]; exact h3
        · intro l hl
          have hmin := hopt.2 l hl
          rw [List.length_reverse]
          omega
      · rw [if_neg hce] at h
        exact ih _ (oinv_step hinv hp hce hstt) h

theorem astarLoop_complete {grid : Grid} {start endp : Cell}
    (hstt : cellVal grid start = some 1) (hreach : ∃ l, IsWalk grid l start endp) :
    ∀ (fuel : ℕ) (st : AState), OInv grid start endp st → phi grid st < fuel →
      ∃ path, astarLoop grid endp fuel st = some path := by
  intro fuel
  induction fuel with
  | zero => intro st _ h; omega
  | succ fuel ih =>
    intro st hinv hphi
    cases hp : popMin st.openSet with
    | none =>
      exfalso
      have hempty := popMin_eq_none hp
      have hsc : start ∈ st.closed := by
        by_contra hns
        obtain ⟨e, he, -, -⟩ := hinv.openEntry start 0 hinv.base.gStart hns
        rw [hempty] at he
        cases he
      obtain ⟨l, hl⟩ := hreach
      have hall : ∀ (w : List Cell) (u z : Cell), IsWalk grid w u z →
          u ∈ st.closed → z ∈ st.closed := by
        intro w
        induction w with
        | nil => intro u z hw; exact absurd hw.1 (by simp)
        | cons x t ihw =>
          intro u z hw hu
          cases t with
          | nil =>
            obtain ⟨h1, h2⟩ := isWalk_single_eq hw
            rw [h1] at h2
            exact h2 ▸ hu
          | cons y t' =>
            obtain ⟨rfl, hstep, hwalk⟩ := isWalk_cons_cons hw
            obtain ⟨gu, gv, -, hgv, -⟩ := hinv.closedExp x hu y hstep
            have hy : y ∈ st.closed := by
              by_contra hny
              obtain ⟨e, he, -, -⟩ := hinv.openEntry y gv hgv hny
              rw [hempty] at he
              cases he
            exact ihw y z hwalk hy
      exact hinv.endNC (hall l start endp hl hsc)
    | some pr =>
      obtain ⟨⟨f, cnt, cur⟩, rest⟩ := pr
      by_cases hce : cur = endp
      · refine ⟨(reconstruct st.gScore.length st.cameFrom endp).reverse, ?_⟩
        rw [astarLoop, hp]
        show (if cur = endp then
            some (reconstruct st.gScore.length st.cameFrom endp).reverse
          else
            astarLoop grid endp fuel
              ((get_neighbors cur grid).foldl (expandOne endp cur)
                { st with openSet := rest, closed := cur :: st.closed })) = _
        rw [if_pos hce]
      · have hpopmem : ((f, cnt, cur) : HeapEntry) ∈ st.openSet :=
          (popMin_perm hp).mem_iff.mpr (List.mem_cons_self _ _)
        obtain ⟨gcur, hgcur⟩ := hinv.base.openG _ hpopmem
        have hcuropt : WalkDist grid start cur gcur := by
          by_cases hfresh : cur ∈ st.closed
          · exact hinv.closedOpt cur hfresh gcur hgcur
          · exact pop_fresh_opt hinv hp hfresh hgcur
        have hcurbox : gcur + 1 ≤ boxSize grid := walkDist_le_box hstt hcuropt
        have hphi2 : phi grid ((get_neighbors cur grid).foldl (expandOne endp cur)
            { st with openSet := rest, closed := cur :: st.closed }) < fuel := by
          have hfold := foldl_phi endp (get_neighbors cur grid)
            { st with openSet := rest, closed := cur :: st.closed }
            (fun nb hnbm => hnbm) hgcur hcurbox
          have hpp := phi_pop grid hp cur
          omega
        obtain ⟨path, hpath⟩ := ih _ (oinv_step hinv hp hce hstt) hphi2
        refine ⟨path, ?_⟩
        rw [astarLoop, hp]
        show (if cur = endp then
            some (reconstruct st.gScore.length st.cameFrom endp).reverse
          else
            astarLoop grid endp fuel
              ((get_neighbors cur grid).foldl (expandOne endp cur)
                { st with openSet := rest, closed := cur :: st.closed })) = some path
        rw [if_neg hce]
        exact hpath

theorem astar_path_checks_fail {start endp : Cell} {grid : Grid} (hne : start ≠ endp)
    (hfail : ¬ inBoundsB grid start = true ∨ ¬ inBoundsB grid endp = true ∨
      cellVal grid start = some 0 ∨ cellVal grid endp = some 0) :
    astar_path start endp grid = none := by
  unfold astar_path
  rw [if_neg hne]
  by_cases h1 : ¬ inBoundsB grid start = true
  · rw [if_pos h1]
  · rw [if_neg h1]
    by_cases h2 : ¬ inBoundsB grid endp = true
    · rw [if_pos h2]
    · rw [if_neg h2]
      by_cases h3 : cellVal grid start = some 0
      · rw [if_pos h3]
      · rw [if_neg h3]
        by_cases h4 : cellVal grid endp = some 0
        · rw [if_pos h4]
        · rcases hfail with h | h | h | h
          · exact absurd h h1
          · exact absurd h h2
          · exact absurd h h3
          · exact absurd h h4

theorem astar_path_loop_eq {start endp : Cell} {grid : Grid} (hne : start ≠ endp)
    (h1 : inBoundsB grid start = true) (h2 : inBoundsB grid endp = true)
    (h3 : cellVal grid start ≠ some 0) (h4 : cellVal grid endp ≠ some 0) :
    astar_path start endp grid = astarLoop grid endp (astarFuel grid) (astarInit start) := by
  unfold astar_path
  rw [if_neg hne, if_neg (not_not_intro h1), if_neg (not_not_intro h2), if_neg h3, if_neg h4]

theorem calculate_distance_symm (grid : Grid) (hg : ValidGrid grid) (a b : Cell) :
    calculate_distance a b grid = calculate_distance b a grid := by
  by_cases hab : a = b
  · subst hab; rfl
  · have hba : b ≠ a := fun h => hab h.symm
    by_cases hfail : ¬ inBoundsB grid a = true ∨ ¬ inBoundsB grid b = true ∨
        cellVal grid a = some 0 ∨ cellVal grid b = some 0
    · have hf1 : astar_path a b grid = none := astar_path_checks_fail hab hfail
      have hf2 : astar_path b a grid = none := astar_path_checks_fail hba (by tauto)
      unfold calculate_distance
      rw [hf1, hf2, manhattan_comm]
    · push_neg at hfail
      obtain ⟨h1, h2, h3, h4⟩ := hfail
      have hta : cellVal grid a = some 1 := by
        rcases validGrid_cellVal hg h1 with h | h
        · exact absurd h h3
        · exact h
      have htb : cellVal grid b = some 1 := by
        rcases validGrid_cellVal hg h2 with h | h
        · exact absurd h h4
        · exact h
      have he1 := astar_path_loop_eq hab h1 h2 h3 h4
      have he2 := astar_path_loop_eq hba h2 h1 h4 h3
      unfold calculate_distance
      rw [he1, he2]
      cases hr1 : astarLoop grid b (astarFuel grid) (astarInit a) with
      | some p1 =>
        cases hr2 : astarLoop grid a (astarFuel grid) (astarInit b) with
        | some p2 =>
          obtain ⟨hw1, hm1⟩ := astarLoop_opt hta (astarFuel grid) (astarInit a)
            (oinv_init grid a b) hr1
          obtain ⟨hw2, hm2⟩ := astarLoop_opt htb (astarFuel grid) (astarInit b)
            (oinv_init grid b a) hr2
          have e1 := hm1 p2.reverse (isWalk_reverse hw2 htb)
          have e2 := hm2 p1.reverse (isWalk_reverse hw1 hta)
          simp only [List.length_reverse] at e1 e2
          show p1.length - 1 = p2.length - 1
          omega
        | none =>
          exfalso
          obtain ⟨hw1, -⟩ := astarLoop_opt hta (astarFuel grid) (astarInit a)
            (oinv_init grid a b) hr1
          have hreach : ∃ l, IsWalk grid l b a := ⟨p1.reverse, isWalk_reverse hw1 hta⟩
          obtain ⟨p2, hp2⟩ := astarLoop_complete htb hreach (astarFuel grid) (astarInit b)
            (oinv_init grid b a) (phi_init_lt grid b)
          rw [hp2] at hr2
          cases hr2
      | none =>
        cases hr2 : astarLoop grid a (astarFuel grid) (astarInit b) with
        | some p2 =>
          exfalso
          obtain ⟨hw2, -⟩ := astarLoop_opt htb (astarFuel grid) (astarInit b)
            (oinv_init grid b a) hr2
          have hreach : ∃ l, IsWalk grid l a b := ⟨p2.reverse, isWalk_reverse hw2 htb⟩
          obtain ⟨p1, hp1⟩ := astarLoop_complete hta hreach (astarFuel grid) (astarInit a)
            (oinv_init grid a b) (phi_init_lt grid a)
          rw [hp1] at hr1
          cases hr1
        | none =>
          show (manhattan_distance a b).toNat = (manhattan_distance b a).toNat
          rw [manhattan_comm]

theorem matrix_distance_symm (grid? : Option Grid) (hg : ∀ g ∈ grid?, ValidGrid g)
    (x y : Cell) : matrix_distance grid? x y = matrix_distance grid? y x := by
  cases grid? with
  | none =>
    show (manhattan_distance x y).toNat = (manhattan_distance y x).toNat
    rw [manhattan_comm]
  | some g => exact calculate_distance_symm g (hg g rfl) x y

theorem matrix_distance_self (grid? : Option Grid) (x : Cell) :
    matrix_distance grid? x x = 0 := by
  cases grid? with
  | none =>
    show (manhattan_distance x x).toNat = 0
    simp [manhattan_distance]
  | some g =>
    show calculate_distance x x g = 0
    unfold calculate_distance astar_path
    rw [if_pos rfl]
    rfl

theorem alookup_append {α β : Type} [DecidableEq α] (l1 l2 : List (α × β)) (k : α) :
    alookup (l1 ++ l2) k = (alookup l1 k).orElse (fun _ => alookup l2 k) := by
  induction l1 with
  | nil => rfl
  | cons p t ih =>
    obtain ⟨x, y⟩ := p
    rw [List.cons_append, alookup_cons, alookup_cons]
    by_cases hx : x = k
    · rw [if_pos hx, if_pos hx]
      rfl
    · rw [if_neg hx, if_neg hx, ih]

theorem alookup_row (locs : List (String × Cell)) (grid? : Option Grid) (f1 : String)
    (f2 : Cell) (p q : String) :
    alookup (locs.map fun tk => ((f1, tk.1), matrix_distance grid? f2 tk.2)) (p, q) =
      if f1 = p then (alookup locs q).map (fun tq => matrix_distance grid? f2 tq)
      else none := by
  induction locs with
  | nil =>
    by_cases hf : f1 = p
    · rw [if_pos hf]; rfl
    · rw [if_neg hf]; rfl
  | cons t ts ih =>
    obtain ⟨tk1, tk2⟩ := t
    rw [List.map_cons, alookup_cons, alookup_cons]
    by_cases hkey : ((f1, tk1) : String × String) = (p, q)
    · rw [if_pos hkey]
      have hf : f1 = p := congrArg Prod.fst hkey
      have ht : tk1 = q := congrArg Prod.snd hkey
      rw [if_pos hf, if_pos ht]
      rfl
    · rw [if_neg hkey, ih]
      by_cases hf : f1 = p
      · rw [if_pos hf, if_pos hf]
        by_cases ht : tk1 = q
        · exact absurd (by rw [hf, ht]) hkey
        · rw [if_neg ht]
      · rw [if_neg hf, if_neg hf]

theorem alookup_table_aux (grid? : Option Grid) (p q : String) :
    ∀ (outer inner : List (String × Cell)),
      alookup ((outer.map fun f => inner.map fun t =>
          ((f.1, t.1), matrix_distance grid? f.2 t.2)).flatten) (p, q) =
        (alookup outer p).bind fun fp =>
          (alookup inner q).map fun tq => matrix_distance grid? fp tq := by
  intro outer inner
  induction outer with
  | nil => simp [alookup]
  | cons fk fs ih =>
    obtain ⟨f1, f2⟩ := fk
    simp only [List.map_cons, List.flatten_cons]
    rw [alookup_append, alookup_row]
    by_cases hf : f1 = p
    · rw [if_pos hf]
      have hl : alookup ((f1, f2) :: fs) p = some f2 := by
        rw [alookup_cons, if_pos hf]
      rw [hl]
      cases hq : alookup inner q with
      | none =>
        rw [ih, hq]
        cases alookup fs p <;> rfl
      | some tq => rfl
    · rw [if_neg hf]
      have hl : alookup ((f1, f2) :: fs) p = alookup fs p := by
        rw [alookup_cons, if_neg hf]
      rw [hl]
      exact ih

theorem distancesTable_lookup (locs : List (String × Cell)) (grid? : Option Grid)
    (p q : String) :
    alookup (distancesTable locs grid?) (p, q) =
      (alookup locs p).bind fun fp =>
        (alookup locs q).map fun tq => matrix_distance grid? fp tq := by
  unfold distancesTable
  exact alookup_table_aux grid? p q locs locs

/-- C8: the distance table built by `calculate_distance_matrix` is symmetric —
for any two ids `p` and `q` among `entry` and the product ids, the `(p, q)`
and `(q, p)` entries agree — and the self-distance entry of every id in the
location table is `0`; both with a well-formed navigation grid (A* distances)
and without one (Manhattan distances). -/
theorem distance_matrix_symmetric (products : List Product) (entry_point : Cell)
    (grid? : Option Grid) (hg : ∀ g ∈ grid?, ValidGrid g) :
    (∀ p q : String,
      alookup (calculate_distance_matrix products entry_point grid?).distances (p, q) =
        alookup (calculate_distance_matrix products entry_point grid?).distances (q, p)) ∧
    (∀ (p : String) (c : Cell),
      alookup (calculate_distance_matrix products entry_point grid?).locations p = some c →
      alookup (calculate_distance_matrix products entry_point grid?).distances (p, p) =
        some 0) := by
  constructor
  · intro p q
    show alookup (distancesTable _ grid?) (p, q) = alookup (distancesTable _ grid?) (q, p)
    rw [distancesTable_lookup, distancesTable_lookup]
    cases hp : alookup (("entry", entry_point) ::
        products.map fun pr => (pr.id, pr.pickup_location)) p with
    | none => cases hq : alookup (("entry", entry_point) ::
          products.map fun pr => (pr.id, pr.pickup_location)) q with
      | none => rfl
      | some tq => simp
    | some fp => cases hq : alookup (("entry", entry_point) ::
          products.map fun pr => (pr.id, pr.pickup_location)) q with
      | none => simp
      | some tq => simp [matrix_distance_symm grid? hg fp tq]
  · intro p c hc
    show alookup (distancesTable _ grid?) (p, p) = some 0
    rw [distancesTable_lookup]
    have hc' : alookup (("entry", entry_point) ::
        products.map fun pr => (pr.id, pr.pickup_location)) p = some c := hc
    rw [hc']
    simp [matrix_distance_self grid? c]

/-- C8 witness: the symmetry and self-distance contract evaluated for the
products table over the source's 5×5 test grid. -/
theorem distance_matrix_symmetric_witness :
    (∀ g ∈ some demoGrid, ValidGrid g) ∧
    alookup (calculate_distance_matrix [aisleProductA] (1, 1) (some demoGrid)).distances
        ("entry", "Product_A") =
      alookup (calculate_distance_matrix [aisleProductA] (1, 1) (some demoGrid)).distances
        ("Product_A", "entry") ∧
    alookup (calculate_distance_matrix [aisleProductA] (1, 1) (some demoGrid)).distances
        ("entry", "entry") = some 0 := by
  have hvg : ∀ g ∈ some demoGrid, ValidGrid g := by
    intro g h
    cases h
    unfold ValidGrid
    decide
  have h := distance_matrix_symmetric [aisleProductA] (1, 1) (some demoGrid) hvg
  exact ⟨hvg, h.1 "entry" "Product_A", h.2 "entry" (1, 1) (by decide)⟩

end Optipick
